import Mathlib

/-!
Verification development for the Looker job-notification pipeline.

The Python sources are embedded shallowly: pure functions become Lean
functions, the SQLite-backed seen-set becomes a list of records with
insert-or-ignore semantics, wall-clock values and the process
environment are passed explicitly, and Python exceptions are modelled
with an explicit error type. ASCII text is assumed throughout (the
repository feeds ASCII keywords, identifiers and URLs through these
functions), so Python str.lower is modelled as ASCII lowercasing.
-/

namespace Looker

/-- ASCII lowercase of a character, modelling Python str.lower on ASCII text. -/
def asciiLowerC (c : Char) : Char :=
  if 65 ≤ c.toNat ∧ c.toNat ≤ 90 then Char.ofNat (c.toNat + 32) else c

/-- ASCII lowercase of a string. -/
def asciiLowerS (s : String) : String :=
  String.mk (s.toList.map asciiLowerC)

theorem toNat_ofNat_valid {n : Nat} (h : n < 55296) : (Char.ofNat n).toNat = n := by
  unfold Char.ofNat
  rw [dif_pos (Or.inl h)]
  unfold Char.ofNatAux Char.toNat
  simp [UInt32.toNat]

theorem asciiLowerC_toNat_of_upper {c : Char}
    (h : 65 ≤ c.toNat ∧ c.toNat ≤ 90) :
    (asciiLowerC c).toNat = c.toNat + 32 := by
  unfold asciiLowerC
  rw [if_pos h, toNat_ofNat_valid (by omega)]

theorem asciiLowerC_of_not_upper {c : Char}
    (h : ¬(65 ≤ c.toNat ∧ c.toNat ≤ 90)) : asciiLowerC c = c := by
  unfold asciiLowerC
  rw [if_neg h]

theorem asciiLowerC_idem (c : Char) : asciiLowerC (asciiLowerC c) = asciiLowerC c := by
  by_cases h : 65 ≤ c.toNat ∧ c.toNat ≤ 90
  · have := asciiLowerC_toNat_of_upper h
    exact asciiLowerC_of_not_upper (by omega)
  · rw [asciiLowerC_of_not_upper h, asciiLowerC_of_not_upper h]

theorem asciiLowerS_idem (s : String) : asciiLowerS (asciiLowerS s) = asciiLowerS s := by
  unfold asciiLowerS
  simp only [String.toList]
  congr 1
  generalize s.data = l
  induction l with
  | nil => rfl
  | cons c t ih => simp [asciiLowerC_idem, ih]

/-! ## Seen-set store (state.py, class StateStore)

The SQLite table seen_items with primary key uid is modelled as a list of
rows in insertion order; INSERT OR IGNORE appends a row only when no row
with the same uid exists.  The wall-clock timestamp taken inside
mark_seen is passed as an explicit argument. -/

/-- A row of the seen_items table: (uid PRIMARY KEY, first_seen_ts, source_group, url). -/
structure SeenRecord where
  uid : String
  first_seen_ts : String
  source_group : String
  url : String
  deriving DecidableEq, Repr

/-- StateStore.is_seen: point lookup by uid. -/
def is_seen (s : List SeenRecord) (uid : String) : Bool :=
  s.any (fun r => r.uid = uid)

/-- StateStore.mark_seen: INSERT OR IGNORE of (uid, ts, source_group, url). -/
def mark_seen (s : List SeenRecord) (uid source_group url ts : String) :
    List SeenRecord :=
  if is_seen s uid then s else s ++ [⟨uid, ts, source_group, url⟩]

/-- StateStore.count: SELECT COUNT(*) FROM seen_items. -/
def seenCount (s : List SeenRecord) : Nat := s.length

/-- The first_seen_ts column of the row with the given uid, if any. -/
def firstSeenTs (s : List SeenRecord) (uid : String) : Option String :=
  (s.find? (fun r => r.uid = uid)).map (fun r => r.first_seen_ts)

theorem find?_eq_none_of_any_false {p : SeenRecord → Bool} {s : List SeenRecord}
    (h : s.any p = false) : s.find? p = none := by
  induction s with
  | nil => rfl
  | cons r t ih =>
    simp only [List.any_cons, Bool.or_eq_false_iff] at h
    simp [List.find?, h.1, ih h.2]

theorem mark_seen_of_unseen {s : List SeenRecord} {uid : String}
    (h : is_seen s uid = false) (sg url ts : String) :
    mark_seen s uid sg url ts = s ++ [⟨uid, ts, sg, url⟩] := by
  simp [mark_seen, h]

theorem mark_seen_of_seen {s : List SeenRecord} {uid : String}
    (h : is_seen s uid = true) (sg url ts : String) :
    mark_seen s uid sg url ts = s := by
  simp [mark_seen, h]

theorem is_seen_mark_seen (s : List SeenRecord) (uid sg url ts : String) :
    is_seen (mark_seen s uid sg url ts) uid = true := by
  by_cases h : is_seen s uid = true
  · simp [mark_seen, h]
  · have h' : is_seen s uid = false := by
      cases hb : is_seen s uid
      · rfl
      · exact absurd hb h
    simp [mark_seen_of_unseen h', is_seen, List.any_append]

/-- Claim C4: is_seen is false on a store holding no row for the identity and
true immediately after mark_seen; a second mark_seen with the same identity is
a no-op (same store, same count) and does not overwrite the first-seen
timestamp recorded by the first call. -/
theorem stateStore_markSeen_idempotent
    (s : List SeenRecord) (uid sg url ts sg2 url2 ts2 : String)
    (h : is_seen s uid = false) :
    is_seen ([] : List SeenRecord) uid = false ∧
    is_seen (mark_seen s uid sg url ts) uid = true ∧
    mark_seen (mark_seen s uid sg url ts) uid sg2 url2 ts2
      = mark_seen s uid sg url ts ∧
    seenCount (mark_seen (mark_seen s uid sg url ts) uid sg2 url2 ts2)
      = seenCount (mark_seen s uid sg url ts) ∧
    firstSeenTs (mark_seen s uid sg url ts) uid = some ts ∧
    firstSeenTs (mark_seen (mark_seen s uid sg url ts) uid sg2 url2 ts2) uid
      = some ts := by
  have hseen := is_seen_mark_seen s uid sg url ts
  have hnoop : mark_seen (mark_seen s uid sg url ts) uid sg2 url2 ts2
      = mark_seen s uid sg url ts := mark_seen_of_seen hseen sg2 url2 ts2
  have hfind : s.find? (fun r => r.uid = uid) = none :=
    find?_eq_none_of_any_false h
  have hts : firstSeenTs (mark_seen s uid sg url ts) uid = some ts := by
    rw [mark_seen_of_unseen h]
    unfold firstSeenTs
    rw [List.find?_append, hfind]
    simp [List.find?]
  refine ⟨rfl, hseen, hnoop, by rw [hnoop], hts, by rw [hnoop]; exact hts⟩

/-- Witness for claim C4 at a concrete store and identity. -/
theorem stateStore_markSeen_idempotent_witness :
    is_seen ([] : List SeenRecord) "g:1" = false ∧
    is_seen (mark_seen [] "g:1" "g" "u" "t1") "g:1" = true ∧
    mark_seen (mark_seen [] "g:1" "g" "u" "t1") "g:1" "g" "u" "t2"
      = mark_seen [] "g:1" "g" "u" "t1" ∧
    seenCount (mark_seen (mark_seen [] "g:1" "g" "u" "t1") "g:1" "g" "u" "t2")
      = seenCount (mark_seen [] "g:1" "g" "u" "t1") ∧
    firstSeenTs (mark_seen [] "g:1" "g" "u" "t1") "g:1" = some "t1" ∧
    firstSeenTs (mark_seen (mark_seen [] "g:1" "g" "u" "t1") "g:1" "g" "u" "t2") "g:1"
      = some "t1" :=
  stateStore_markSeen_idempotent [] "g:1" "g" "u" "t1" "g" "u" "t2" (by decide)

/-! ## Keyword matching (filtering.py, keyword_matches)

Python re semantics for the patterns actually used: a keyword containing a
space, hyphen, period or comma is matched by plain substring search; a bare
keyword is matched through a word-boundary regex.  The word-boundary regex
is modelled directly: a boundary holds between two positions exactly when
one side is a word character and the other is not (out of bounds counts as
not a word character). -/

/-- ASCII digit test (regex class backslash-d restricted to ASCII). -/
def isDigitC (c : Char) : Bool := 48 ≤ c.toNat && c.toNat ≤ 57

/-- ASCII letter test. -/
def isAsciiAlphaC (c : Char) : Bool :=
  (97 ≤ c.toNat && c.toNat ≤ 122) || (65 ≤ c.toNat && c.toNat ≤ 90)

/-- Regex word character: letter, digit or underscore (ASCII). -/
def isWordC (c : Char) : Bool := isAsciiAlphaC c || isDigitC c || c = '_'

/-- Word test lifted to an optional character; out of bounds is not a word char. -/
def isWordO : Option Char → Bool
  | none => false
  | some c => isWordC c

/-- A word boundary holds between two adjacent positions when exactly one side
is a word character. -/
def boundaryB (prev next : Option Char) : Bool := isWordO prev != isWordO next

/-- The last character of a, or prev when a is empty. -/
def lastO (prev : Option Char) (a : List Char) : Option Char :=
  match a.getLast? with
  | some c => some c
  | none => prev

/-- Does k occur at the head of l? -/
def startsWithL : List Char → List Char → Bool
  | [], _ => true
  | _ :: _, [] => false
  | k :: ks, c :: cs => if k = c then startsWithL ks cs else false

/-- Does k occur as a contiguous substring of l (Python in operator)? -/
def containsSub (k : List Char) : List Char → Bool
  | [] => startsWithL k []
  | c :: rest => startsWithL k (c :: rest) || containsSub k rest

/-- Does the word-boundary regex for literal k match at the head position of l,
with prev the character just before this position? -/
def wbAt (k : List Char) (prev : Option Char) (l : List Char) : Bool :=
  boundaryB prev l.head? && startsWithL k l &&
    boundaryB (lastO prev k) (l.drop k.length).head?

/-- re.search of the word-boundary regex for literal k over l. -/
def wbSearch (k : List Char) (prev : Option Char) : List Char → Bool
  | [] => wbAt k prev []
  | c :: rest => wbAt k prev (c :: rest) || wbSearch k (some c) rest

theorem startsWithL_iff : ∀ (k l : List Char),
    startsWithL k l = true ↔ ∃ t, l = k ++ t
  | [], l => by simp [startsWithL]
  | k :: ks, [] => by simp [startsWithL]
  | k :: ks, c :: cs => by
    rw [startsWithL]
    by_cases h : k = c
    · subst h
      rw [if_pos rfl, startsWithL_iff ks cs]
      constructor
      · rintro ⟨t, rfl⟩; exact ⟨t, rfl⟩
      · rintro ⟨t, ht⟩
        exact ⟨t, by injection ht⟩
    · rw [if_neg h]
      constructor
      · intro hfalse; cases hfalse
      · rintro ⟨t, ht⟩
        injection ht with h1 _
        exact absurd h1.symm h

theorem containsSub_iff : ∀ (k l : List Char),
    containsSub k l = true ↔ ∃ a b, l = a ++ k ++ b
  | k, [] => by
    rw [containsSub, startsWithL_iff]
    constructor
    · rintro ⟨t, ht⟩
      exact ⟨[], t, by simpa using ht⟩
    · rintro ⟨a, b, h⟩
      rw [List.nil_eq, List.append_eq_nil, List.append_eq_nil] at h
      exact ⟨[], by simp [h.1.1, h.1.2, h.2]⟩
  | k, c :: rest => by
    rw [containsSub, Bool.or_eq_true, startsWithL_iff, containsSub_iff k rest]
    constructor
    · rintro (⟨t, ht⟩ | ⟨a, b, hab⟩)
      · exact ⟨[], t, by simpa using ht⟩
      · exact ⟨c :: a, b, by simp [hab]⟩
    · rintro ⟨a, b, hab⟩
      cases a with
      | nil => exact Or.inl ⟨b, by simpa using hab⟩
      | cons a0 atl =>
        injection hab with h1 h2
        exact Or.inr ⟨atl, b, h2⟩

theorem lastO_cons (prev : Option Char) (c : Char) (a : List Char) :
    lastO prev (c :: a) = lastO (some c) a := by
  cases a with
  | nil => rfl
  | cons d t =>
    unfold lastO
    rw [List.getLast?_cons_cons]
    cases hg : (d :: t).getLast? with
    | some x => rfl
    | none => exact absurd (List.getLast?_eq_none_iff.mp hg) (List.cons_ne_nil d t)

theorem lastO_of_ne_nil {k : List Char} (hk : k ≠ []) (prev : Option Char) :
    lastO prev k = k.getLast? := by
  unfold lastO
  cases hg : k.getLast? with
  | some c => rfl
  | none => exact absurd (List.getLast?_eq_none_iff.mp hg) hk

theorem wbAt_iff (k : List Char) (hk : k ≠ []) (prev : Option Char) (l : List Char) :
    wbAt k prev l = true ↔
      ∃ t, l = k ++ t ∧ boundaryB prev k.head? = true ∧
        boundaryB k.getLast? t.head? = true := by
  unfold wbAt
  rw [Bool.and_eq_true, Bool.and_eq_true, startsWithL_iff]
  constructor
  · rintro ⟨⟨hb1, t, rfl⟩, hb2⟩
    rw [List.head?_append_of_ne_nil _ hk] at hb1
    rw [List.drop_left, lastO_of_ne_nil hk] at hb2
    exact ⟨t, rfl, hb1, hb2⟩
  · rintro ⟨t, rfl, hb1, hb2⟩
    refine ⟨⟨?_, t, rfl⟩, ?_⟩
    · rw [List.head?_append_of_ne_nil _ hk]; exact hb1
    · rw [List.drop_left, lastO_of_ne_nil hk]; exact hb2

theorem wbSearch_iff (k : List Char) (hk : k ≠ []) :
    ∀ (l : List Char) (prev : Option Char),
    wbSearch k prev l = true ↔
      ∃ a b, l = a ++ k ++ b ∧
        boundaryB (lastO prev a) k.head? = true ∧
        boundaryB k.getLast? b.head? = true
  | [], prev => by
    rw [wbSearch, wbAt_iff k hk]
    constructor
    · rintro ⟨t, ht, -, -⟩
      rw [List.nil_eq, List.append_eq_nil] at ht
      exact absurd ht.1 hk
    · rintro ⟨a, b, hab, -, -⟩
      rw [List.nil_eq, List.append_eq_nil, List.append_eq_nil] at hab
      exact absurd hab.1.2 hk
  | c :: rest, prev => by
    rw [wbSearch, Bool.or_eq_true, wbAt_iff k hk, wbSearch_iff k hk rest (some c)]
    constructor
    · rintro (⟨t, ht, h1, h2⟩ | ⟨a, b, hab, h1, h2⟩)
      · exact ⟨[], t, by simpa using ht, h1, h2⟩
      · refine ⟨c :: a, b, by simp [hab], ?_, h2⟩
        rw [lastO_cons]; exact h1
    · rintro ⟨a, b, hab, h1, h2⟩
      cases a with
      | nil => exact Or.inl ⟨b, by simpa using hab, h1, h2⟩
      | cons a0 atl =>
        rw [List.cons_append, List.cons_append] at hab
        injection hab with hc htl
        subst hc
        refine Or.inr ⟨atl, b, htl, ?_, h2⟩
        rw [lastO_cons] at h1; exact h1

/-- A separator in the sense of keyword_matches: space, hyphen, period or comma. -/
def isSepC (c : Char) : Bool := c = ' ' || c = '-' || c = '.' || c = ','

/-- Does the keyword contain a space, hyphen, period or comma? -/
def hasSepChar (s : String) : Bool := s.toList.any isSepC

/-- filtering.py, keyword_matches: lowercase the keyword; keywords with
separator characters use substring search, bare words use a word-boundary
regex search.  The call sites pass text that is already lowercased. -/
def keyword_matches (keyword text : String) : Bool :=
  let kl := asciiLowerS keyword
  if hasSepChar kl then containsSub kl.toList text.toList
  else wbSearch kl.toList none text.toList

theorem char_eq_iff_toNat {c d : Char} : c = d ↔ c.toNat = d.toNat := by
  constructor
  · intro h; rw [h]
  · intro h; exact Char.eq_of_val_eq (UInt32.toNat.inj h)

theorem isSepC_asciiLowerC (c : Char) : isSepC (asciiLowerC c) = isSepC c := by
  by_cases h : 65 ≤ c.toNat ∧ c.toNat ≤ 90
  · have hl := asciiLowerC_toNat_of_upper h
    unfold isSepC
    have : ∀ d : Char, 47 ≤ d.toNat → (d = ' ' || d = '-' || d = '.' || d = ',') = false := by
      intro d hd
      have h1 : ¬(d = ' ') := by rw [char_eq_iff_toNat]; intro hx; rw [hx] at hd; simp at hd
      have h2 : ¬(d = '-') := by rw [char_eq_iff_toNat]; intro hx; rw [hx] at hd; simp at hd
      have h3 : ¬(d = '.') := by rw [char_eq_iff_toNat]; intro hx; rw [hx] at hd; simp at hd
      have h4 : ¬(d = ',') := by rw [char_eq_iff_toNat]; intro hx; rw [hx] at hd; simp at hd
      simp [h1, h2, h3, h4]
    rw [this (asciiLowerC c) (by omega), this c (by omega)]
  · rw [asciiLowerC_of_not_upper h]

theorem hasSepChar_asciiLowerS (s : String) : hasSepChar (asciiLowerS s) = hasSepChar s := by
  unfold hasSepChar asciiLowerS
  simp only [String.toList]
  generalize s.data = l
  induction l with
  | nil => rfl
  | cons c t ih => simp [List.any_cons, isSepC_asciiLowerC, ih]

/-! ## Job model (models.py, class Job) -/

/-- Normalized job posting (models.py).  posted_at is carried as its string
rendering; the snippet-truncation validator is not needed by the claims. -/
structure JobM where
  uid : String
  source_group : String
  source_name : String
  title : String
  company : String
  location : String := ""
  remote : Bool := false
  url : String
  snippet : String := ""
  posted_at : Option String := none
  raw_id : Option String := none
  tags : List String := []
  deriving Repr, DecidableEq

/-- The searchable text of filter_job: title, snippet and company joined by
spaces, lowercased. -/
def jobSearchable (j : JobM) : String :=
  asciiLowerS (j.title ++ " " ++ j.snippet ++ " " ++ j.company)

/-- Concrete posting whose title contains the bare word API. -/
def jobApiDeveloper : JobM :=
  { uid := "t:1", source_group := "t", source_name := "T",
    title := "API Developer", company := "Acme", url := "https://example.com/1" }

/-- Concrete posting whose company contains api only inside CapitalOne. -/
def jobCapitalOne : JobM :=
  { uid := "t:2", source_group := "t", source_name := "T",
    title := "Markets Analyst", company := "CapitalOne", url := "https://example.com/2" }

/-- Claim C8: keyword matching is case-insensitive in the keyword; a keyword
containing a space, hyphen, period or comma is matched by substring search of
its lowercase form, while a bare single word is matched by a word-boundary
search; concretely the include keyword api matches the searchable text of a
posting titled API Developer but not that of a posting whose company is
CapitalOne. -/
theorem keywordMatches_word_boundary_precision (kw text : String) :
    (keyword_matches kw text = keyword_matches (asciiLowerS kw) text) ∧
    (hasSepChar kw = true →
      (keyword_matches kw text = true ↔
        ∃ a b, text.toList = a ++ (asciiLowerS kw).toList ++ b)) ∧
    (hasSepChar kw = false → (asciiLowerS kw).toList ≠ [] →
      (keyword_matches kw text = true ↔
        ∃ a b, text.toList = a ++ (asciiLowerS kw).toList ++ b ∧
          boundaryB (lastO none a) (asciiLowerS kw).toList.head? = true ∧
          boundaryB (asciiLowerS kw).toList.getLast? b.head? = true)) ∧
    keyword_matches "api" (jobSearchable jobApiDeveloper) = true ∧
    keyword_matches "api" (jobSearchable jobCapitalOne) = false := by
  refine ⟨?_, ?_, ?_, by decide, by decide⟩
  · unfold keyword_matches
    rw [asciiLowerS_idem]
  · intro hsep
    unfold keyword_matches
    rw [if_pos (by rw [hasSepChar_asciiLowerS]; exact hsep)]
    exact containsSub_iff _ _
  · intro hsep hne
    unfold keyword_matches
    rw [if_neg (by rw [hasSepChar_asciiLowerS, hsep]; simp)]
    exact wbSearch_iff _ hne _ _

/-- Witness for claim C8: the separator-keyword conjunct instantiated at the
keyword full stack and a concrete text containing it. -/
theorem keywordMatches_word_boundary_precision_witness :
    keyword_matches "Full Stack" "a full stack developer" = true ↔
      ∃ a b, "a full stack developer".toList
        = a ++ (asciiLowerS "Full Stack").toList ++ b :=
  (keywordMatches_word_boundary_precision "Full Stack" "a full stack developer").2.1
    (by decide)

/-! ## Configuration (config.py) -/

/-- config.py, class LevelKeywordsConfig. -/
structure LevelKeywordsConfig where
  enabled : Bool := false
  terms : List String := []
  deriving Repr, DecidableEq

/-- config.py, class FilteringConfig.  It declares only include_keywords,
exclude_keywords and level_keywords; filter_job also dereferences
max_experience_years and location, which this class does not declare, and
pydantic raises AttributeError on access to an undeclared field (the extra
keys some tests pass are ignored at construction, not stored). -/
structure FilteringConfig where
  include_keywords : List String := []
  exclude_keywords : List String := []
  level_keywords : LevelKeywordsConfig := {}
  deriving Repr, DecidableEq

/-- config.py, class AppConfig.  The routing dict maps a source group to the
name of the environment variable holding its webhook URL; the free-form
sources dict drives only fetcher construction and is not needed here. -/
structure AppConfig where
  poll_interval_seconds : Nat := 600
  filtering : FilteringConfig := {}
  routing : List (String × String) := []
  deriving Repr, DecidableEq

/-- Python exception surrogate for the modelled code paths. -/
inductive PyError where
  | attributeError (attr : String)
  deriving Repr, DecidableEq

/-- filtering.py, filter_job, evaluated against the program's own AppConfig:
the exclude stage runs first and returns a rejection with no matched
keywords; the next statement dereferences
config.filtering.max_experience_years, which FilteringConfig does not
declare, so execution raises AttributeError there and the later stages are
unreachable. -/
def filter_job (job : JobM) (config : AppConfig) :
    Except PyError (Bool × List String) :=
  let searchable := jobSearchable job
  let filtering := config.filtering
  if filtering.exclude_keywords.any (fun kw => keyword_matches kw searchable) then
    Except.ok (false, [])
  else
    Except.error (PyError.attributeError "max_experience_years")

/-! ## Orchestrator inner loop (main.py, poll_once lines 148-166)

filterF and notifyF stand for the calls to filter_job and notify; the
wall-clock timestamp taken inside mark_seen is the explicit ts argument.
A filter exception propagates to the per-source handler, which logs it and
abandons the rest of that source's postings; store mutations made before
the exception persist. -/

/-- Per-posting processing: skip seen postings, commit filtered-out postings
immediately without notifying, notify relevant ones and commit exactly when
notify returns true. -/
def process_job (filterF : JobM → Except PyError (Bool × List String))
    (notifyF : JobM → List String → Bool) (ts : String)
    (s : List SeenRecord) (n : Nat) (job : JobM) :
    Except PyError (List SeenRecord × Nat) :=
  if is_seen s job.uid then Except.ok (s, n)
  else
    match filterF job with
    | Except.error e => Except.error e
    | Except.ok (passed, matched_kw) =>
      if passed = false then
        Except.ok (mark_seen s job.uid job.source_group job.url ts, n)
      else if notifyF job matched_kw then
        Except.ok (mark_seen s job.uid job.source_group job.url ts, n + 1)
      else Except.ok (s, n)

/-- Sequential processing of one source's result list, stopped by the first
filter exception (caught per source in poll_once). -/
def process_jobs (filterF : JobM → Except PyError (Bool × List String))
    (notifyF : JobM → List String → Bool) (ts : String) :
    List SeenRecord → Nat → List JobM → List SeenRecord × Nat × Option PyError
  | s, n, [] => (s, n, none)
  | s, n, job :: rest =>
    match process_job filterF notifyF ts s n job with
    | Except.ok (s2, n2) => process_jobs filterF notifyF ts s2 n2 rest
    | Except.error e => (s, n, some e)

/-- Claim C1: a seen posting is skipped with no filter or notify evaluation;
an unseen posting rejected by the filter is committed immediately with no
notification; an unseen accepted posting is notified and committed exactly
when notify returns true, the seen-set being left unchanged on a false
return. -/
theorem pollOnce_commit_discipline
    (F F2 : JobM → Except PyError (Bool × List String))
    (N N2 : JobM → List String → Bool) (ts : String)
    (s : List SeenRecord) (n : Nat) (job : JobM) :
    (is_seen s job.uid = true →
      process_job F N ts s n job = Except.ok (s, n) ∧
      process_job F N ts s n job = process_job F2 N2 ts s n job) ∧
    (∀ kws, is_seen s job.uid = false → F job = Except.ok (false, kws) →
      process_job F N ts s n job
        = Except.ok (mark_seen s job.uid job.source_group job.url ts, n) ∧
      process_job F N ts s n job = process_job F N2 ts s n job) ∧
    (∀ kws, is_seen s job.uid = false → F job = Except.ok (true, kws) →
      (N job kws = true →
        process_job F N ts s n job
          = Except.ok (mark_seen s job.uid job.source_group job.url ts, n + 1)) ∧
      (N job kws = false → process_job F N ts s n job = Except.ok (s, n)) ∧
      (∀ s2 n2, process_job F N ts s n job = Except.ok (s2, n2) →
        (is_seen s2 job.uid = true ↔ N job kws = true))) := by
  refine ⟨?_, ?_, ?_⟩
  · intro hseen
    constructor <;> simp [process_job, hseen]
  · intro kws hunseen hF
    constructor <;> simp [process_job, hunseen, hF]
  · intro kws hunseen hF
    refine ⟨?_, ?_, ?_⟩
    · intro hN; simp [process_job, hunseen, hF, hN]
    · intro hN; simp [process_job, hunseen, hF, hN]
    · intro s2 n2 hres
      cases hN : N job kws with
      | true =>
        simp only [process_job, hunseen, hF, hN] at hres
        simp only [Bool.false_eq_true, if_false, if_true, reduceCtorEq] at hres
        have hs2 : s2 = mark_seen s job.uid job.source_group job.url ts := by
          cases hres with
          | refl => rfl
        simp [hs2, is_seen_mark_seen, hN]
      | false =>
        simp only [process_job, hunseen, hF, hN] at hres
        simp only [Bool.false_eq_true, if_false, reduceCtorEq] at hres
        have hs2 : s2 = s := by
          cases hres with
          | refl => rfl
        simp [hs2, hunseen, hN]

/-- Witness for claim C1: a concrete unseen posting rejected by the filter is
committed with no notification counted. -/
theorem pollOnce_commit_discipline_witness :
    process_job (fun _ => Except.ok (false, [])) (fun _ _ => true) "t" [] 0
        jobApiDeveloper
      = Except.ok
          (mark_seen [] jobApiDeveloper.uid jobApiDeveloper.source_group
            jobApiDeveloper.url "t", 0) :=
  ((pollOnce_commit_discipline (fun _ => Except.ok (false, []))
      (fun _ => Except.ok (false, [])) (fun _ _ => true) (fun _ _ => true)
      "t" [] 0 jobApiDeveloper).2.1 [] (by decide) rfl).1

/-- Claim C6: if any exclude keyword matches the searchable text, the filter
rejects with an empty matched-keyword list, whatever the include keywords
are (the exclude stage runs first and nothing can override it). -/
theorem filter_exclude_wins (job : JobM) (config : AppConfig)
    (h : ∃ kw ∈ config.filtering.exclude_keywords,
      keyword_matches kw (jobSearchable job) = true) :
    filter_job job config = Except.ok (false, []) := by
  unfold filter_job
  rw [if_pos (List.any_eq_true.mpr h)]

/-- Concrete posting matching both an include and an exclude keyword. -/
def jobSeniorPython : JobM :=
  { uid := "t:3", source_group := "t", source_name := "T",
    title := "Senior Python Developer", company := "Acme",
    url := "https://example.com/3" }

/-- Concrete configuration where an include keyword and an exclude keyword
both match jobSeniorPython. -/
def configSeniorPython : AppConfig :=
  { filtering := { include_keywords := ["python"], exclude_keywords := ["senior"] } }

/-- Witness for claim C6 on a posting matching both an include and an exclude
keyword. -/
theorem filter_exclude_wins_witness :
    filter_job jobSeniorPython configSeniorPython = Except.ok (false, []) :=
  filter_exclude_wins jobSeniorPython configSeniorPython
    ⟨"senior", by decide, by decide⟩

/-- Claim C5 (amended): driven by the program's own configuration type,
filter_job raises AttributeError as soon as it reaches the
experience-ceiling stage, because FilteringConfig declares neither
max_experience_years nor location; hence no job is ever accepted, and the
only way a job can be rejected without an exception is the exclude stage,
which runs before the failing dereference; in poll_once the exception is
caught per source, abandoning the remaining postings of that source for the
cycle while keeping the store mutations already made. -/
theorem filterJob_attributeError_spec (job : JobM) (config : AppConfig) :
    ((∀ kw ∈ config.filtering.exclude_keywords,
        keyword_matches kw (jobSearchable job) = false) →
      filter_job job config
        = Except.error (PyError.attributeError "max_experience_years")) ∧
    (∀ b kws, filter_job job config = Except.ok (b, kws) →
      b = false ∧ kws = []) ∧
    (∀ (N : JobM → List String → Bool) (ts : String) (s : List SeenRecord)
        (n : Nat) (rest : List JobM),
      is_seen s job.uid = false →
      (∀ kw ∈ config.filtering.exclude_keywords,
        keyword_matches kw (jobSearchable job) = false) →
      process_jobs (fun j => filter_job j config) N ts s n (job :: rest)
        = (s, n, some (PyError.attributeError "max_experience_years"))) := by
  have herr : (∀ kw ∈ config.filtering.exclude_keywords,
      keyword_matches kw (jobSearchable job) = false) →
      filter_job job config
        = Except.error (PyError.attributeError "max_experience_years") := by
    intro hexcl
    unfold filter_job
    rw [if_neg]
    simp only [List.any_eq_true, not_exists]
    intro kw
    intro ⟨hmem, hkw⟩
    rw [hexcl kw hmem] at hkw
    cases hkw
  refine ⟨herr, ?_, ?_⟩
  · intro b kws hok
    unfold filter_job at hok
    by_cases hexcl : config.filtering.exclude_keywords.any
        (fun kw => keyword_matches kw (jobSearchable job)) = true
    · rw [if_pos hexcl] at hok
      have : b = false ∧ kws = [] := by
        injection hok with h1
        injection h1 with hb hkws
        exact ⟨hb.symm, hkws.symm⟩
      exact this
    · rw [if_neg hexcl] at hok
      cases hok
  · intro N ts s n rest hunseen hexcl
    rw [process_jobs]
    have : process_job (fun j => filter_job j config) N ts s n job
        = Except.error (PyError.attributeError "max_experience_years") := by
      simp [process_job, hunseen, herr hexcl]
    rw [this]

/-- Witness for claim C5: a posting matching no exclude keyword makes
filter_job raise, and the orchestrator abandons the rest of the source. -/
theorem filterJob_attributeError_spec_witness :
    filter_job jobApiDeveloper configSeniorPython
      = Except.error (PyError.attributeError "max_experience_years") ∧
    process_jobs (fun j => filter_job j configSeniorPython) (fun _ _ => true)
        "t" [] 0 [jobApiDeveloper, jobCapitalOne]
      = ([], 0, some (PyError.attributeError "max_experience_years")) :=
  ⟨(filterJob_attributeError_spec jobApiDeveloper configSeniorPython).1
      (by decide),
   (filterJob_attributeError_spec jobApiDeveloper configSeniorPython).2.2
      (fun _ _ => true) "t" [] 0 [jobCapitalOne] (by decide) (by decide)⟩

/-- Counterexample for claim C5 as stated: it asserts that no job can be
accepted or rejected by the filter, but a posting matching an exclude
keyword is rejected normally, before the failing attribute access. -/
theorem filterJob_rejects_on_exclude_counterexample :
    filter_job jobSeniorPython configSeniorPython = Except.ok (false, []) ∧
    Except.ok (false, ([] : List String))
      ≠ (Except.error (PyError.attributeError "max_experience_years")
          : Except PyError (Bool × List String)) := by
  constructor
  · rfl
  · intro h; cases h

/-! ## Location check (filtering.py, is_allowed_location) -/

/-- The location configuration object dereferenced by is_allowed_location
(the fields the function reads, plus the enabled flag read at its call
site). -/
structure LocationConfigM where
  enabled : Bool := false
  allowed_keywords : List String := []
  excluded_keywords : List String := []
  deriving Repr, DecidableEq

/-- filtering.py, is_allowed_location: empty location is allowed; otherwise
excluded keywords reject first, then allowed keywords accept, then an empty
allow-list accepts, otherwise reject. -/
def is_allowed_location (location : String) (location_config : LocationConfigM) :
    Bool :=
  if location = "" then true
  else
    let location_lower := asciiLowerS location
    if location_config.excluded_keywords.any
        (fun k => containsSub (asciiLowerS k).toList location_lower.toList) then
      false
    else if location_config.allowed_keywords.any
        (fun k => containsSub (asciiLowerS k).toList location_lower.toList) then
      true
    else if location_config.allowed_keywords = [] then true
    else false

/-- Claim C9: the location check allows the empty location; otherwise it
rejects on any excluded keyword occurring in the lowercased location,
else accepts on any allowed keyword, else accepts exactly when the
allow-list is empty — excluded keywords take precedence over allowed
ones. -/
theorem locationCheck_precedence (location : String) (cfg : LocationConfigM) :
    (location = "" → is_allowed_location location cfg = true) ∧
    (location ≠ "" →
      (∃ k ∈ cfg.excluded_keywords,
        containsSub (asciiLowerS k).toList (asciiLowerS location).toList = true) →
      is_allowed_location location cfg = false) ∧
    (location ≠ "" →
      (∀ k ∈ cfg.excluded_keywords,
        containsSub (asciiLowerS k).toList (asciiLowerS location).toList = false) →
      (∃ k ∈ cfg.allowed_keywords,
        containsSub (asciiLowerS k).toList (asciiLowerS location).toList = true) →
      is_allowed_location location cfg = true) ∧
    (location ≠ "" →
      (∀ k ∈ cfg.excluded_keywords,
        containsSub (asciiLowerS k).toList (asciiLowerS location).toList = false) →
      (∀ k ∈ cfg.allowed_keywords,
        containsSub (asciiLowerS k).toList (asciiLowerS location).toList = false) →
      cfg.allowed_keywords = [] →
      is_allowed_location location cfg = true) ∧
    (location ≠ "" →
      (∀ k ∈ cfg.excluded_keywords,
        containsSub (asciiLowerS k).toList (asciiLowerS location).toList = false) →
      (∀ k ∈ cfg.allowed_keywords,
        containsSub (asciiLowerS k).toList (asciiLowerS location).toList = false) →
      cfg.allowed_keywords ≠ [] →
      is_allowed_location location cfg = false) := by
  have hanyf : ∀ (l : List String),
      (∀ k ∈ l, containsSub (asciiLowerS k).toList (asciiLowerS location).toList
        = false) →
      (l.any (fun k =>
        containsSub (asciiLowerS k).toList (asciiLowerS location).toList)) = false := by
    intro l hall
    rw [List.any_eq_false]
    intro k hk
    rw [hall k hk]
    intro hc
    cases hc
  refine ⟨?_, ?_, ?_, ?_, ?_⟩
  · intro h; simp [is_allowed_location, h]
  · intro hne hex
    simp only [is_allowed_location, if_neg hne]
    rw [if_pos (List.any_eq_true.mpr hex)]
  · intro hne hexcl hall
    simp only [is_allowed_location, if_neg hne]
    rw [if_neg (by rw [hanyf _ hexcl]; intro h; cases h),
      if_pos (List.any_eq_true.mpr hall)]
  · intro hne hexcl hallf hempty
    simp only [is_allowed_location, if_neg hne]
    rw [if_neg (by rw [hanyf _ hexcl]; intro h; cases h),
      if_neg (by rw [hanyf _ hallf]; intro h; cases h), if_pos hempty]
  · intro hne hexcl hallf hnonempty
    simp only [is_allowed_location, if_neg hne]
    rw [if_neg (by rw [hanyf _ hexcl]; intro h; cases h),
      if_neg (by rw [hanyf _ hallf]; intro h; cases h), if_neg hnonempty]

/-- Witness for claim C9: a location containing both an excluded and an
allowed keyword is rejected (excluded keywords run first). -/
theorem locationCheck_precedence_witness :
    is_allowed_location "Toronto, Canada"
      { enabled := true, allowed_keywords := ["toronto"],
        excluded_keywords := ["canada"] } = false :=
  (locationCheck_precedence "Toronto, Canada"
      { enabled := true, allowed_keywords := ["toronto"],
        excluded_keywords := ["canada"] }).2.1 (by decide)
    ⟨"canada", by decide, by decide⟩

/-! ## Webhook routing and notification (config.py, discord_notifier.py)

The process environment is passed explicitly; the webhook transport
(_send_with_retry and its HTTP stack) is an external collaborator passed as
the send argument; the module-level rate-limit cooldown map and the wall
clock are explicit arguments. -/

/-- Lookup in the routing dict of config.py. -/
def lookupRouting (routing : List (String × String)) (sg : String) : Option String :=
  (routing.find? (fun p => p.1 = sg)).map (fun p => p.2)

/-- config.py, get_webhook_url: None when the routing entry is missing or
empty, or when the named environment variable is unset or empty. -/
def get_webhook_url (config : AppConfig) (env : String → Option String)
    (source_group : String) : Option String :=
  match lookupRouting config.routing source_group with
  | none => none
  | some env_var =>
    if env_var = "" then none
    else
      match env env_var with
      | none => none
      | some url => if url = "" then none else some url

/-- Result of one webhook POST attempt by the external transport. -/
inductive SendResult where
  | delivered
  | rateLimited (retry_after : Nat)
  | failed
  deriving Repr, DecidableEq

/-- discord_notifier.py, notify: dry-run short-circuits to True; a missing
webhook URL returns False without raising; a webhook still in cooldown
returns False; otherwise the POST is attempted, recording a cooldown on a
rate limit.  Returns the boolean result and the updated cooldown map. -/
def notify (dry_run : Bool) (config : AppConfig) (env : String → Option String)
    (now : Nat) (cooldowns : List (String × Nat))
    (send : String → JobM → List String → SendResult)
    (job : JobM) (matched_keywords : List String) :
    Bool × List (String × Nat) :=
  if dry_run then (true, cooldowns)
  else
    match get_webhook_url config env job.source_group with
    | none => (false, cooldowns)
    | some webhook_url =>
      let cooldown_until :=
        ((cooldowns.find? (fun p => p.1 = webhook_url)).map Prod.snd).getD 0
      if now < cooldown_until then (false, cooldowns)
      else
        match send webhook_url job matched_keywords with
        | SendResult.delivered => (true, cooldowns)
        | SendResult.rateLimited retry_after =>
          (false, (webhook_url, now + retry_after)
            :: cooldowns.filter (fun p => p.1 ≠ webhook_url))
        | SendResult.failed => (false, cooldowns)

/-- The seen-set after m poll cycles in each of which the fetcher returns the
posting again and poll_once processes it (a per-source exception leaves the
state as it was). -/
def runCycles (filterF : JobM → Except PyError (Bool × List String))
    (notifyF : JobM → List String → Bool) (ts : String) (job : JobM) :
    Nat → List SeenRecord → List SeenRecord
  | 0, s => s
  | m + 1, s =>
    match process_job filterF notifyF ts s 0 job with
    | Except.ok (s2, _) => runCycles filterF notifyF ts job m s2
    | Except.error _ => runCycles filterF notifyF ts job m s

/-- Claim C10: with dry-run off, a posting whose source group has no routing
entry, or whose routed environment variable is unset, makes notify return
false without raising; by the orchestrator's commit rule such a posting is
never marked seen, so every later cycle that returns it re-attempts it. -/
theorem notify_unrouted_never_committed
    (config : AppConfig) (env : String → Option String) (now : Nat)
    (cooldowns : List (String × Nat))
    (send : String → JobM → List String → SendResult)
    (job : JobM) (kws : List String) :
    (lookupRouting config.routing job.source_group = none →
      get_webhook_url config env job.source_group = none) ∧
    (∀ env_var, lookupRouting config.routing job.source_group = some env_var →
      env env_var = none → get_webhook_url config env job.source_group = none) ∧
    (get_webhook_url config env job.source_group = none →
      (notify false config env now cooldowns send job kws).1 = false) ∧
    (get_webhook_url config env job.source_group = none →
      ∀ (F : JobM → Except PyError (Bool × List String)) (ts : String)
        (s : List SeenRecord) (m : Nat),
        F job = Except.ok (true, kws) →
        is_seen s job.uid = false →
        runCycles F
            (fun j k => (notify false config env now cooldowns send j k).1)
            ts job m s = s ∧
        is_seen (runCycles F
            (fun j k => (notify false config env now cooldowns send j k).1)
            ts job m s) job.uid = false) := by
  refine ⟨?_, ?_, ?_, ?_⟩
  · intro h
    unfold get_webhook_url
    rw [h]
  · intro env_var hvar henv
    unfold get_webhook_url
    rw [hvar]
    by_cases hv : env_var = ""
    · simp [hv]
    · simp [hv, henv]
  · intro hnone
    unfold notify
    rw [if_neg (by intro h; cases h), hnone]
  · intro hnone F ts s m hF hunseen
    have hnotify : ∀ k, (notify false config env now cooldowns send job k).1 = false := by
      intro k
      unfold notify
      rw [if_neg (by intro h; cases h), hnone]
    have hstep : process_job F
        (fun j k => (notify false config env now cooldowns send j k).1)
        ts s 0 job = Except.ok (s, 0) := by
      simp [process_job, hunseen, hF, hnotify]
    have hrun : runCycles F
        (fun j k => (notify false config env now cooldowns send j k).1)
        ts job m s = s := by
      induction m with
      | zero => rfl
      | succ m ih =>
        rw [runCycles, hstep]
        exact ih
    exact ⟨hrun, by rw [hrun]; exact hunseen⟩

/-- Witness for claim C10: a concrete posting with no routing entry is still
unseen after three cycles with a transport that would always deliver. -/
theorem notify_unrouted_never_committed_witness :
    runCycles (fun _ => Except.ok (true, []))
        (fun j k => (notify false {} (fun _ => none) 0 []
          (fun _ _ _ => SendResult.delivered) j k).1)
        "t" jobApiDeveloper 3 [] = [] ∧
    is_seen (runCycles (fun _ => Except.ok (true, []))
        (fun j k => (notify false {} (fun _ => none) 0 []
          (fun _ _ _ => SendResult.delivered) j k).1)
        "t" jobApiDeveloper 3 []) jobApiDeveloper.uid = false :=
  (notify_unrouted_never_committed {} (fun _ => none) 0 []
      (fun _ _ _ => SendResult.delivered) jobApiDeveloper []).2.2.2 rfl
    (fun _ => Except.ok (true, [])) "t" [] 3 rfl rfl

/-! ## Experience-year pattern (filtering.py, _EXPERIENCE_YEARS_RE)

The compiled pattern captures one or two digits, then optional whitespace, an
optional plus sign, optional whitespace, an optional hyphen-or-en-dash range
tail with a second captured number, an optional to range tail with a third
captured number, then the literal year with an optional s and a word
boundary, all case-insensitively.  It is embedded as a backtracking matcher:
each component returns the list of every way it can match, in the engine's
preference order (greedy quantifiers longest first, optional groups taken
before skipped), and the head of the final list is the match Python finds.
finditer is modelled by scanning left to right, resuming after the end of
each match. -/

/-- Python regex whitespace class (ASCII part). -/
def isPySpace (c : Char) : Bool :=
  c = ' ' || c = '\t' || c = '\n' || c = '\r' || c = '\x0b' || c = '\x0c'

/-- Alternatives for one-or-two digits, greedy: two digits first.  Yields the
captured value and the rest. -/
def matchD12 : List Char → List (Nat × List Char)
  | [] => []
  | c1 :: rest1 =>
    if isDigitC c1 then
      match rest1 with
      | c2 :: rest2 =>
        if isDigitC c2 then
          [((c1.toNat - 48) * 10 + (c2.toNat - 48), rest2), (c1.toNat - 48, rest1)]
        else [(c1.toNat - 48, rest1)]
      | [] => [(c1.toNat - 48, rest1)]
    else []

/-- Alternatives for whitespace star, greedy: longest first. -/
def wsStar : List Char → List (List Char)
  | [] => [[]]
  | c :: rest => if isPySpace c then wsStar rest ++ [c :: rest] else [c :: rest]

/-- Alternatives for whitespace plus, greedy. -/
def wsPlus : List Char → List (List Char)
  | [] => []
  | c :: rest => if isPySpace c then wsStar rest else []

/-- Alternatives for an optional literal plus sign, greedy: taken first. -/
def plusOpt : List Char → List (List Char)
  | [] => [[]]
  | c :: rest => if c = '+' then [rest, c :: rest] else [c :: rest]

/-- Alternatives for the optional range tail (hyphen or en dash, whitespace,
two digits, whitespace): group taken first, then skipped. -/
def rangeOpt (l : List Char) : List (Option Nat × List Char) :=
  (match l with
   | c :: rest =>
     if c = '-' || c = '–' then
       (wsStar rest).flatMap (fun r1 =>
         (matchD12 r1).flatMap (fun p =>
           (wsStar p.2).map (fun r3 => (some p.1, r3))))
     else []
   | [] => []) ++ [(none, l)]

/-- Alternatives for the optional to range tail (the literal to, mandatory
whitespace, two digits, mandatory whitespace): group taken first. -/
def toOpt (l : List Char) : List (Option Nat × List Char) :=
  (match l with
   | c1 :: c2 :: rest =>
     if (c1 = 't' || c1 = 'T') && (c2 = 'o' || c2 = 'O') then
       (wsPlus rest).flatMap (fun r1 =>
         (matchD12 r1).flatMap (fun p =>
           (wsPlus p.2).map (fun r3 => (some p.1, r3))))
     else []
   | _ => []) ++ [(none, l)]

/-- Alternatives for the literal year with optional greedy s, then a word
boundary (the next character, if any, must not be a word character). -/
def yearsTail : List Char → List (List Char)
  | c1 :: c2 :: c3 :: c4 :: rest =>
    if (c1 = 'y' || c1 = 'Y') && (c2 = 'e' || c2 = 'E') &&
        (c3 = 'a' || c3 = 'A') && (c4 = 'r' || c4 = 'R') then
      (match rest with
       | c5 :: rest5 => if c5 = 's' || c5 = 'S' then [rest5, rest] else [rest]
       | [] => [rest]).filter (fun r => !(isWordO r.head?))
    else []
  | _ => []

/-- Every full match of the experience pattern at the current position, in
backtracking order; the triple holds the three captured numbers. -/
def expMatchesAt (l : List Char) : List ((Nat × Option Nat × Option Nat) × List Char) :=
  (matchD12 l).flatMap (fun p1 =>
    (wsStar p1.2).flatMap (fun r2 =>
      (plusOpt r2).flatMap (fun r3 =>
        (wsStar r3).flatMap (fun r4 =>
          (rangeOpt r4).flatMap (fun p2 =>
            (toOpt p2.2).flatMap (fun p3 =>
              (yearsTail p3.2).map (fun r7 => ((p1.1, p2.1, p3.1), r7))))))))

/-- The match Python's engine finds at this position, if any: the first
success in backtracking order. -/
def expMatchAt (l : List Char) : Option ((Nat × Option Nat × Option Nat) × List Char) :=
  (expMatchesAt l).head?

/-- finditer's scan: try each position left to right, resuming after the end
of each match.  Every match consumes at least the four characters of year,
so a fuel of one more than the text length is never exhausted. -/
def expFindAll : Nat → List Char → List (Nat × Option Nat × Option Nat)
  | 0, _ => []
  | _ + 1, [] => []
  | fuel + 1, c :: rest =>
    match expMatchAt (c :: rest) with
    | some (caps, r) => caps :: expFindAll fuel r
    | none => expFindAll fuel rest

/-- filtering.py, exceeds_experience_years: True exactly when some captured
group of some match of the experience pattern strictly exceeds max_years. -/
def exceeds_experience_years (text : String) (max_years : Nat) : Bool :=
  (expFindAll (text.toList.length + 1) text.toList).any (fun caps =>
    decide (max_years < caps.1) ||
    (match caps.2.1 with | some n => decide (max_years < n) | none => false) ||
    (match caps.2.2 with | some n => decide (max_years < n) | none => false))

/-- The captured numbers of one match, in group order. -/
def capturedNums (caps : Nat × Option Nat × Option Nat) : List Nat :=
  caps.1 ::
    ((match caps.2.1 with | some n => [n] | none => []) ++
     (match caps.2.2 with | some n => [n] | none => []))

theorem capsExceed_iff (N : Nat) (caps : Nat × Option Nat × Option Nat) :
    (decide (N < caps.1) ||
      (match caps.2.1 with | some n => decide (N < n) | none => false) ||
      (match caps.2.2 with | some n => decide (N < n) | none => false)) = true ↔
    ∃ m ∈ capturedNums caps, N < m := by
  obtain ⟨n1, o2, o3⟩ := caps
  cases o2 <;> cases o3 <;> simp [capturedNums, or_assoc]

/-- Claim C7: the experience check rejects exactly when some captured number
in some matched experience-year expression strictly exceeds the ceiling; a
number equal to the ceiling never rejects.  With ceiling 2, a text reading
2 years of experience passes while 3 years of experience and 2-3 years
fail. -/
theorem experienceCeiling_inclusive (text : String) (N : Nat) :
    (exceeds_experience_years text N = true ↔
      ∃ caps ∈ expFindAll (text.toList.length + 1) text.toList,
        ∃ m ∈ capturedNums caps, N < m) ∧
    exceeds_experience_years "2 years of experience" 2 = false ∧
    exceeds_experience_years "3 years of experience" 2 = true ∧
    exceeds_experience_years "2-3 years" 2 = true := by
  refine ⟨?_, by decide, by decide, by decide⟩
  unfold exceeds_experience_years
  rw [List.any_eq_true]
  constructor
  · rintro ⟨caps, hmem, hx⟩
    exact ⟨caps, hmem, (capsExceed_iff N caps).mp hx⟩
  · rintro ⟨caps, hmem, hx⟩
    exact ⟨caps, hmem, (capsExceed_iff N caps).mpr hx⟩

/-! ## SHA-256 (hashlib.sha256, used by the url and hash uid tiers)

Standard FIPS 180-4 SHA-256 over a byte list, with 32-bit words carried as
naturals reduced modulo 2 to the 32.  The strings hashed by generate_uid are
ASCII, so the UTF-8 encoding of Python str.encode is the code-point byte
map. -/

/-- 2 to the 32. -/
def w32 : Nat := 4294967296

/-- Right rotation of a 32-bit word. -/
def rotr (n x : Nat) : Nat := ((x >>> n) ||| (x <<< (32 - n))) % w32

/-- Bitwise complement of a 32-bit word. -/
def bnot32 (x : Nat) : Nat := 4294967295 ^^^ x

/-- The 64 SHA-256 round constants. -/
def sha256K : List Nat := [
  1116352408, 1899447441, 3049323471, 3921009573, 961987163, 1508970993, 2453635748, 2870763221,
  3624381080, 310598401, 607225278, 1426881987, 1925078388, 2162078206, 2614888103, 3248222580,
  3835390401, 4022224774, 264347078, 604807628, 770255983, 1249150122, 1555081692, 1996064986,
  2554220882, 2821834349, 2952996808, 3210313671, 3336571891, 3584528711, 113926993, 338241895,
  666307205, 773529912, 1294757372, 1396182291, 1695183700, 1986661051, 2177026350, 2456956037,
  2730485921, 2820302411, 3259730800, 3345764771, 3516065817, 3600352804, 4094571909, 275423344,
  430227734, 506948616, 659060556, 883997877, 958139571, 1322822218, 1537002063, 1747873779,
  1955562222, 2024104815, 2227730452, 2361852424, 2428436474, 2756734187, 3204031479, 3329325298]

/-- The eight SHA-256 initial hash values. -/
def sha256H0 : List Nat :=
  [1779033703, 3144134277, 1013904242, 2773480762,
   1359893119, 2600822924, 528734635, 1541459225]

/-- Big-endian bytes of a number, fixed width. -/
def toBytesBE : Nat → Nat → List Nat
  | 0, _ => []
  | k + 1, n => toBytesBE k (n / 256) ++ [n % 256]

/-- SHA-256 padding: a 128 byte, zeros to 56 modulo 64, then the bit length
as eight big-endian bytes. -/
def sha256Pad (msg : List Nat) : List Nat :=
  let len := msg.length
  let padLen := (120 - ((len + 1) % 64)) % 64
  msg ++ 128 :: List.replicate padLen 0 ++ toBytesBE 8 (len * 8)

/-- Big-endian 32-bit words from bytes. -/
def bytesToWords : List Nat → List Nat
  | b1 :: b2 :: b3 :: b4 :: rest =>
    (((b1 * 256 + b2) * 256 + b3) * 256 + b4) :: bytesToWords rest
  | _ => []

/-- One step of the message-schedule extension. -/
def schedExtend (w : List Nat) : List Nat :=
  let n := w.length
  let x15 := w.getD (n - 15) 0
  let x2 := w.getD (n - 2) 0
  let s0 := (rotr 7 x15) ^^^ (rotr 18 x15) ^^^ (x15 >>> 3)
  let s1 := (rotr 17 x2) ^^^ (rotr 19 x2) ^^^ (x2 >>> 10)
  w ++ [(w.getD (n - 16) 0 + s0 + w.getD (n - 7) 0 + s1) % w32]

/-- Extend 16 words to the 64-word message schedule. -/
def msgSchedule (w16 : List Nat) : List Nat :=
  Nat.rec w16 (fun _ acc => schedExtend acc) 48

/-- One SHA-256 round on the eight-word working state. -/
def compressStep (st : List Nat) (kw : Nat × Nat) : List Nat :=
  match st with
  | [a, b, c, d, e, f, g, h] =>
    let s1 := (rotr 6 e) ^^^ (rotr 11 e) ^^^ (rotr 25 e)
    let ch := (e &&& f) ^^^ (bnot32 e &&& g)
    let temp1 := (h + s1 + ch + kw.1 + kw.2) % w32
    let s0 := (rotr 2 a) ^^^ (rotr 13 a) ^^^ (rotr 22 a)
    let maj := (a &&& b) ^^^ (a &&& c) ^^^ (b &&& c)
    let temp2 := (s0 + maj) % w32
    [(temp1 + temp2) % w32, a, b, c, (d + temp1) % w32, e, f, g]
  | _ => st

/-- Compression of one 64-byte block into the running hash. -/
def sha256Compress (hs : List Nat) (w16 : List Nat) : List Nat :=
  let st := (sha256K.zip (msgSchedule w16)).foldl compressStep hs
  (hs.zip st).map (fun p => (p.1 + p.2) % w32)

/-- Process the padded bytes block by block.  The fuel only bounds the
number of 64-byte blocks; each step consumes 64 bytes, so a fuel of the
byte count never runs out. -/
def sha256Blocks : Nat → List Nat → List Nat → List Nat
  | _, hs, [] => hs
  | 0, hs, _ => hs
  | fuel + 1, hs, l =>
    sha256Blocks fuel (sha256Compress hs (bytesToWords (l.take 64))) (l.drop 64)

/-- Hex character of a nibble. -/
def hexChar (n : Nat) : Char :=
  if n < 10 then Char.ofNat (48 + n) else Char.ofNat (87 + n)

/-- Two hex characters of a byte. -/
def byteToHex (b : Nat) : List Char := [hexChar (b / 16), hexChar (b % 16)]

/-- hashlib.sha256(bytes).hexdigest(). -/
def sha256hex (msg : List Nat) : String :=
  let padded := sha256Pad msg
  let hs := sha256Blocks padded.length sha256H0 padded
  String.mk ((hs.flatMap (toBytesBE 4)).flatMap byteToHex)

/-- Python str.encode for the ASCII strings hashed here. -/
def utf8Bytes (s : String) : List Nat := s.toList.map Char.toNat

/-- First sixteen hex characters of the SHA-256 of a string, as generate_uid
takes them. -/
def sha256hex16 (s : String) : String :=
  String.mk ((sha256hex (utf8Bytes s)).toList.take 16)

/-! ## URL canonicalization (models.py, canonicalize helper on urllib.parse)

The splitting algorithm of CPython urlsplit, the params split urlparse adds
on the last path segment, and the reassembly of urlunparse are embedded on
character lists.  Not modelled: the sanitisation passes of recent CPython
(removal of tab, carriage return and newline, stripping of leading and
trailing control characters and spaces) and the bracket check of IPv6
netlocs, which are identities respectively vacuous on URLs of printable
ASCII without spaces or square brackets; the idempotence theorem restricts
to such URLs.  Query, fragment and params contents are discarded by the
canonicalizer, so only their removal matters. -/

/-- A scheme character: ASCII letter, digit, plus, hyphen or period. -/
def isSchemeChar (c : Char) : Bool :=
  isAsciiAlphaC c || isDigitC c || c = '+' || c = '-' || c = '.'

/-- Characters ending the netloc. -/
def isNetlocDelim (c : Char) : Bool := c = '/' || c = '?' || c = '#'

/-- Result of urlsplit (the params component is split later by urlparse). -/
structure SplitUrl where
  scheme : List Char
  netloc : List Char
  path : List Char
  query : List Char
  fragment : List Char
  deriving Repr, DecidableEq

/-- Scheme extraction of CPython urlsplit: an initial nonempty run of scheme
characters before a colon, starting with a letter, is the scheme, returned
lowercased together with what follows the colon; otherwise the scheme is
empty and the input is left whole. -/
def schemeSplit (url : List Char) : List Char × List Char :=
  let pre := url.takeWhile (fun c => c ≠ ':')
  if url.any (fun c => c = ':') && !pre.isEmpty && pre.all isSchemeChar &&
      (match pre.head? with | some c => isAsciiAlphaC c | none => false) then
    (pre.map asciiLowerC, (url.dropWhile (fun c => c ≠ ':')).drop 1)
  else ([], url)

/-- Netloc extraction of CPython urlsplit: a leading double slash opens the
netloc, which runs to the first slash, question mark or hash. -/
def netlocSplit (rest : List Char) : List Char × List Char :=
  if rest.take 2 = ['/', '/'] then
    ((rest.drop 2).takeWhile (fun c => !isNetlocDelim c),
     (rest.drop 2).dropWhile (fun c => !isNetlocDelim c))
  else ([], rest)

/-- CPython urlsplit: scheme, then netloc, then the first hash starts the
fragment and, before it, the first question mark starts the query. -/
def pyUrlsplit (url : List Char) : SplitUrl :=
  let sp := schemeSplit url
  let np := netlocSplit sp.2
  let beforeFrag := np.2.takeWhile (fun c => c ≠ '#')
  let fragment := (np.2.dropWhile (fun c => c ≠ '#')).drop 1
  let path := beforeFrag.takeWhile (fun c => c ≠ '?')
  let query := (beforeFrag.dropWhile (fun c => c ≠ '?')).drop 1
  ⟨sp.1, np.1, path, query, fragment⟩

/-- The schemes for which urlparse splits params off the path. -/
def usesParamsL : List String :=
  ["", "ftp", "hdl", "prospero", "http", "imap", "https", "shttp", "rtsp",
   "rtsps", "rtspu", "sip", "sips", "mms", "sftp", "tel"]

/-- The schemes for which urlunsplit reattaches a double slash even without a
netloc. -/
def usesNetlocL : List String :=
  ["", "ftp", "http", "gopher", "nntp", "telnet", "imap", "wais", "file",
   "mms", "https", "shttp", "snews", "prospero", "rtsp", "rtsps", "rtspu",
   "rsync", "svn", "svn+ssh", "sftp", "nfs", "git", "git+ssh", "ws", "wss"]

/-- CPython splitparams: cut the path at the first semicolon of its last
segment (after the last slash; the whole path when it has no slash). -/
def splitParamsPath (p : List Char) : List Char :=
  if p.any (fun c => c = '/') then
    let segRev := p.reverse.takeWhile (fun c => c ≠ '/')
    if segRev.any (fun c => c = ';') then
      (p.reverse.dropWhile (fun c => c ≠ '/')).reverse
        ++ segRev.reverse.takeWhile (fun c => c ≠ ';')
    else p
  else p.takeWhile (fun c => c ≠ ';')

/-- The path after urlparse's params handling: cut by splitparams when the
scheme uses params and the path contains a semicolon. -/
def paramsAdjustedPath (s : SplitUrl) : List Char :=
  if usesParamsL.contains (String.mk s.scheme) && s.path.any (fun c => c = ';') then
    splitParamsPath s.path
  else s.path

/-- CPython urlparse: urlsplit, then the params split on the path (the params
value itself is dropped by the canonicalizer, so only the shortened path is
kept). -/
def pyUrlparse (url : List Char) : SplitUrl :=
  { pyUrlsplit url with path := paramsAdjustedPath (pyUrlsplit url) }

/-- CPython urlunparse with empty params, query and fragment: reattach the
double slash when a netloc is present, or when the scheme uses a netloc and
the path does not already open with a double slash; a nonempty path not
starting with a slash is separated from the netloc by one; then prepend the
scheme and a colon. -/
def pyUrlunparseBody (scheme netloc path : List Char) : List Char :=
  if netloc ≠ [] ∨
      (scheme ≠ [] ∧ usesNetlocL.contains (String.mk scheme) = true ∧
        path.take 2 ≠ ['/', '/']) then
    '/' :: '/' :: (netloc ++
      (if path ≠ [] ∧ path.head? ≠ some '/' then '/' :: path else path))
  else path

def pyUrlunparseSNP (scheme netloc path : List Char) : List Char :=
  if scheme ≠ [] then scheme ++ ':' :: pyUrlunparseBody scheme netloc path
  else pyUrlunparseBody scheme netloc path

/-- Strip all trailing slashes (Python rstrip with a slash argument). -/
def rstripSlash (p : List Char) : List Char :=
  (p.reverse.dropWhile (fun c => c = '/')).reverse

/-- models.py, the URL canonicalizer: parse, default the scheme to https and
lowercase it, lowercase the netloc, strip trailing slashes from the path,
and reassemble with empty params, query and fragment. -/
def canonicalize_url (url : String) : String :=
  let parsed := pyUrlparse url.toList
  let scheme :=
    (if parsed.scheme.isEmpty then "https".toList else parsed.scheme).map asciiLowerC
  let netloc := parsed.netloc.map asciiLowerC
  let path := rstripSlash parsed.path
  String.mk (pyUrlunparseSNP scheme netloc path)

/-- Python truthiness of an optional string: None and the empty string are
falsy. -/
def pyTruthy : Option String → Bool
  | none => false
  | some s => !(s == "")

/-- models.py, Job.generate_uid: three-tier uid derivation.  All optional
keyword arguments are passed positionally, in source order. -/
def Job.generate_uid (source_group : String)
    (raw_id url title company location posted_at : Option String) :
    String :=
  if pyTruthy raw_id then source_group ++ ":" ++ raw_id.getD ""
  else if pyTruthy url then
    let canonical := canonicalize_url (url.getD "")
    let digest := sha256hex16 (source_group ++ ":" ++ canonical)
    source_group ++ ":url:" ++ digest
  else
    let parts := source_group ++ ":" ++ title.getD "" ++ ":" ++ company.getD ""
      ++ ":" ++ location.getD "" ++ ":" ++ posted_at.getD ""
    source_group ++ ":hash:" ++ sha256hex16 parts

/-- Claim C2: with a non-empty raw id, generate_uid returns the source group,
a colon and the raw id verbatim, whatever the other fields hold; in
particular supplying a url besides does not change the result, which stays
the native-id tier one. -/
theorem deriveIdentity_native_tier (g rid : String)
    (url title company location posted_at : Option String) (h : rid ≠ "") :
    Job.generate_uid g (some rid) url title company location posted_at
      = g ++ ":" ++ rid ∧
    Job.generate_uid g (some rid) url title company location posted_at
      = Job.generate_uid g (some rid) none none none none none := by
  have htr : pyTruthy (some rid) = true := by
    simp [pyTruthy, h]
  constructor <;> simp [Job.generate_uid, htr]

/-- Witness for claim C2 at the native id 12345 with a url also supplied. -/
theorem deriveIdentity_native_tier_witness :
    Job.generate_uid "greenhouse" (some "12345")
        (some "https://example.com/j/1") (some "T") (some "C") (some "L") none
      = "greenhouse" ++ ":" ++ "12345" ∧
    Job.generate_uid "greenhouse" (some "12345")
        (some "https://example.com/j/1") (some "T") (some "C") (some "L") none
      = Job.generate_uid "greenhouse" (some "12345") none none none none none :=
  deriveIdentity_native_tier "greenhouse" "12345"
    (some "https://example.com/j/1") (some "T") (some "C") (some "L") none
    (by decide)

/-! ## Idempotence of the canonicalizer

Generic takeWhile, dropWhile and reverse lemmas, then character-class
preservation under ASCII lowering, then the round trip of parse after
unparse on canonical components. -/

theorem takeWhileAll {p : Char → Bool} {l : List Char}
    (h : ∀ x ∈ l, p x = true) : l.takeWhile p = l := by
  induction l with
  | nil => rfl
  | cons c t ih =>
    rw [List.takeWhile_cons, if_pos (h c (List.mem_cons_self c t))]
    rw [ih (fun x hx => h x (List.mem_cons_of_mem c hx))]

theorem dropWhileAll {p : Char → Bool} {l : List Char}
    (h : ∀ x ∈ l, p x = true) : l.dropWhile p = [] := by
  induction l with
  | nil => rfl
  | cons c t ih =>
    rw [List.dropWhile_cons, if_pos (h c (List.mem_cons_self c t))]
    exact ih (fun x hx => h x (List.mem_cons_of_mem c hx))

theorem takeWhileApp {p : Char → Bool} {xs : List Char} {y : Char}
    {ys : List Char} (hxs : ∀ x ∈ xs, p x = true) (hy : p y = false) :
    (xs ++ y :: ys).takeWhile p = xs := by
  induction xs with
  | nil => simp [List.takeWhile_cons, hy]
  | cons c t ih =>
    rw [List.cons_append, List.takeWhile_cons,
      if_pos (hxs c (List.mem_cons_self c t))]
    rw [ih (fun x hx => hxs x (List.mem_cons_of_mem c hx))]

theorem dropWhileApp {p : Char → Bool} {xs : List Char} {y : Char}
    {ys : List Char} (hxs : ∀ x ∈ xs, p x = true) (hy : p y = false) :
    (xs ++ y :: ys).dropWhile p = y :: ys := by
  induction xs with
  | nil => simp [List.dropWhile_cons, hy]
  | cons c t ih =>
    rw [List.cons_append, List.dropWhile_cons,
      if_pos (hxs c (List.mem_cons_self c t))]
    exact ih (fun x hx => hxs x (List.mem_cons_of_mem c hx))

theorem takeWhileHeadFalse {p : Char → Bool} {c : Char} {l : List Char}
    (h : p c = false) : (c :: l).takeWhile p = [] := by
  rw [List.takeWhile_cons, if_neg (by rw [h]; intro hx; cases hx)]

theorem dropWhileHeadFalse {p : Char → Bool} {c : Char} {l : List Char}
    (h : p c = false) : (c :: l).dropWhile p = c :: l := by
  rw [List.dropWhile_cons, if_neg (by rw [h]; intro hx; cases hx)]

theorem memOfTakeWhile {p : Char → Bool} {l : List Char} {x : Char}
    (h : x ∈ l.takeWhile p) : x ∈ l :=
  (List.takeWhile_sublist p).subset h

theorem memOfDropWhile {p : Char → Bool} {l : List Char} {x : Char}
    (h : x ∈ l.dropWhile p) : x ∈ l :=
  (List.dropWhile_sublist p).subset h

theorem allTakeWhile {p : Char → Bool} (l : List Char) :
    ∀ x ∈ l.takeWhile p, p x = true := by
  induction l with
  | nil => intro x hx; cases hx
  | cons c t ih =>
    intro x hx
    rw [List.takeWhile_cons] at hx
    by_cases hc : p c = true
    · rw [if_pos hc] at hx
      cases hx with
      | head => exact hc
      | tail _ hmem => exact ih x hmem
    · rw [if_neg hc] at hx
      cases hx

theorem headDropWhileFalse {p : Char → Bool} {l : List Char} {c : Char}
    (h : (l.dropWhile p).head? = some c) : p c = false := by
  induction l with
  | nil => cases h
  | cons d t ih =>
    rw [List.dropWhile_cons] at h
    by_cases hd : p d = true
    · rw [if_pos hd] at h
      exact ih h
    · rw [if_neg hd] at h
      injection h with hdc
      subst hdc
      cases hp : p d
      · rfl
      · exact absurd hp hd

theorem asciiLowerC_cases (c : Char) :
    asciiLowerC c = c ∨
    (97 ≤ (asciiLowerC c).toNat ∧ (asciiLowerC c).toNat ≤ 122) := by
  by_cases h : 65 ≤ c.toNat ∧ c.toNat ≤ 90
  · right
    have := asciiLowerC_toNat_of_upper h
    omega
  · left
    exact asciiLowerC_of_not_upper h

theorem ne_of_toNat_range {d x : Char} (h1 : 97 ≤ d.toNat)
    (hx : x.toNat < 97) : d ≠ x := by
  intro heq
  rw [char_eq_iff_toNat] at heq
  omega

theorem isAsciiAlphaC_of_range {d : Char} (h1 : 97 ≤ d.toNat)
    (h2 : d.toNat ≤ 122) : isAsciiAlphaC d = true := by
  simp [isAsciiAlphaC]
  omega

theorem isSchemeChar_asciiLowerC {c : Char} (h : isSchemeChar c = true) :
    isSchemeChar (asciiLowerC c) = true := by
  rcases asciiLowerC_cases c with hc | hc
  · rwa [hc]
  · unfold isSchemeChar
    rw [isAsciiAlphaC_of_range hc.1 hc.2]
    rfl

theorem isAsciiAlphaC_asciiLowerC {c : Char} (h : isAsciiAlphaC c = true) :
    isAsciiAlphaC (asciiLowerC c) = true := by
  rcases asciiLowerC_cases c with hc | hc
  · rwa [hc]
  · exact isAsciiAlphaC_of_range hc.1 hc.2

theorem isNetlocDelim_asciiLowerC {c : Char} (h : isNetlocDelim c = false) :
    isNetlocDelim (asciiLowerC c) = false := by
  rcases asciiLowerC_cases c with hc | hc
  · rwa [hc]
  · have h1 : asciiLowerC c ≠ '/' := ne_of_toNat_range hc.1 (by decide)
    have h2 : asciiLowerC c ≠ '?' := ne_of_toNat_range hc.1 (by decide)
    have h3 : asciiLowerC c ≠ '#' := ne_of_toNat_range hc.1 (by decide)
    simp [isNetlocDelim, h1, h2, h3]

theorem asciiLowerC_ne_low {c x : Char} (hx : x.toNat < 97) (h : c ≠ x) :
    asciiLowerC c ≠ x := by
  rcases asciiLowerC_cases c with hc | hc
  · rwa [hc]
  · exact ne_of_toNat_range hc.1 hx

theorem dropWhileIdem {p : Char → Bool} (l : List Char) :
    (l.dropWhile p).dropWhile p = l.dropWhile p := by
  cases hh : l.dropWhile p with
  | nil => rfl
  | cons c t =>
    have hc : p c = false := headDropWhileFalse (by rw [hh]; rfl)
    rw [dropWhileHeadFalse hc]

theorem rstripSlash_idem (p : List Char) :
    rstripSlash (rstripSlash p) = rstripSlash p := by
  unfold rstripSlash
  rw [List.reverse_reverse, dropWhileIdem]

theorem memOfRstrip {p : List Char} {x : Char} (h : x ∈ rstripSlash p) :
    x ∈ p := by
  unfold rstripSlash at h
  rw [List.mem_reverse] at h
  have := memOfDropWhile h
  rwa [List.mem_reverse] at this

theorem rstripSlash_cons_slash {p : List Char}
    (hrs : rstripSlash p = p) (hne : p ≠ []) :
    rstripSlash ('/' :: p) = '/' :: p := by
  have hrev : p.reverse.dropWhile (fun c => c = '/') = p.reverse := by
    have h2 := congrArg List.reverse hrs
    unfold rstripSlash at h2
    rwa [List.reverse_reverse] at h2
  obtain ⟨c, t, hct⟩ : ∃ c t, p.reverse = c :: t := by
    cases hpr : p.reverse with
    | nil => exact absurd (by simpa using congrArg List.reverse hpr) hne
    | cons c t => exact ⟨c, t, rfl⟩
  have hc : (fun c => decide (c = '/')) c = false := by
    have hh : (p.reverse.dropWhile (fun c => decide (c = '/'))).head? = some c := by
      rw [hrev, hct]
      rfl
    exact headDropWhileFalse hh
  unfold rstripSlash
  rw [List.reverse_cons, hct, List.cons_append, dropWhileHeadFalse hc,
    ← List.cons_append, ← hct, List.reverse_append, List.reverse_reverse]
  rfl

theorem schemeSplit_canonical {s : List Char} (body : List Char)
    (hne : s ≠ []) (hchars : ∀ x ∈ s, isSchemeChar x = true)
    (hhead : ∃ c t, s = c :: t ∧ isAsciiAlphaC c = true)
    (hlow : s.map asciiLowerC = s) :
    schemeSplit (s ++ ':' :: body) = (s, body) := by
  have hnc : ∀ x ∈ s, (fun c => decide (c ≠ ':')) x = true := by
    intro x hx
    simp only [decide_eq_true_eq]
    intro heq
    rw [heq] at hx
    exact absurd (hchars ':' hx) (by decide)
  have hpre : (s ++ ':' :: body).takeWhile (fun c => c ≠ ':') = s :=
    takeWhileApp hnc (by decide)
  have hdrop : (s ++ ':' :: body).dropWhile (fun c => c ≠ ':') = ':' :: body :=
    dropWhileApp hnc (by decide)
  have hany : (s ++ ':' :: body).any (fun c => c = ':') = true :=
    List.any_eq_true.mpr ⟨':', by simp, by simp⟩
  have hemp : s.isEmpty = false := by
    cases s with
    | nil => exact absurd rfl hne
    | cons c t => rfl
  have hall : s.all isSchemeChar = true := List.all_eq_true.mpr hchars
  obtain ⟨c, t, hct, hca⟩ := hhead
  unfold schemeSplit
  rw [hpre, hdrop]
  rw [if_pos (by rw [hany, hemp, hall, hct]; simp [hca])]
  rw [hlow]
  rfl

theorem netlocSplit_dslash_nil {n : List Char}
    (hn : ∀ x ∈ n, isNetlocDelim x = false) :
    netlocSplit ('/' :: '/' :: n) = (n, []) := by
  have hall : ∀ x ∈ n, (fun c => !isNetlocDelim c) x = true := by
    intro x hx
    show (!isNetlocDelim x) = true
    rw [hn x hx]
    rfl
  unfold netlocSplit
  rw [if_pos (show List.take 2 ('/' :: '/' :: n) = ['/', '/'] from rfl)]
  simp only [List.drop_succ_cons, List.drop_zero]
  rw [takeWhileAll hall, dropWhileAll hall]

theorem netlocSplit_dslash_slash {n pt : List Char}
    (hn : ∀ x ∈ n, isNetlocDelim x = false) :
    netlocSplit ('/' :: '/' :: (n ++ '/' :: pt)) = (n, '/' :: pt) := by
  have hall : ∀ x ∈ n, (fun c => !isNetlocDelim c) x = true := by
    intro x hx
    show (!isNetlocDelim x) = true
    rw [hn x hx]
    rfl
  unfold netlocSplit
  rw [if_pos (show List.take 2 ('/' :: '/' :: (n ++ '/' :: pt)) = ['/', '/'] from rfl)]
  simp only [List.drop_succ_cons, List.drop_zero]
  rw [takeWhileApp hall (by decide), dropWhileApp hall (by decide)]

theorem netlocSplit_no_dslash {body : List Char}
    (h : body.take 2 ≠ ['/', '/']) : netlocSplit body = ([], body) := by
  unfold netlocSplit
  rw [if_neg h]

theorem pyUrlsplit_canonical_dslash (s n pg : List Char)
    (hs_ne : s ≠ []) (hs_chars : ∀ x ∈ s, isSchemeChar x = true)
    (hs_head : ∃ c t, s = c :: t ∧ isAsciiAlphaC c = true)
    (hs_low : s.map asciiLowerC = s)
    (hn : ∀ x ∈ n, isNetlocDelim x = false)
    (hpg : pg = [] ∨ ∃ pt, pg = '/' :: pt)
    (hpg_hash : ∀ x ∈ pg, x ≠ '#') (hpg_q : ∀ x ∈ pg, x ≠ '?') :
    pyUrlsplit (s ++ ':' :: '/' :: '/' :: (n ++ pg)) = ⟨s, n, pg, [], []⟩ := by
  have hsch := schemeSplit_canonical ('/' :: '/' :: (n ++ pg)) hs_ne hs_chars
    hs_head hs_low
  have hnet : netlocSplit ('/' :: '/' :: (n ++ pg)) = (n, pg) := by
    rcases hpg with hnil | ⟨pt, hpt⟩
    · rw [hnil, List.append_nil, netlocSplit_dslash_nil hn]
    · rw [hpt, netlocSplit_dslash_slash hn]
  have hfr : ∀ x ∈ pg, (fun c => decide (c ≠ '#')) x = true := by
    intro x hx
    simp only [decide_eq_true_eq]
    exact hpg_hash x hx
  have hqr : ∀ x ∈ pg, (fun c => decide (c ≠ '?')) x = true := by
    intro x hx
    simp only [decide_eq_true_eq]
    exact hpg_q x hx
  unfold pyUrlsplit
  simp only [hsch, hnet]
  rw [takeWhileAll hfr, dropWhileAll hfr, takeWhileAll hqr, dropWhileAll hqr]
  rfl

theorem pyUrlsplit_canonical_plain (s p : List Char)
    (hs_ne : s ≠ []) (hs_chars : ∀ x ∈ s, isSchemeChar x = true)
    (hs_head : ∃ c t, s = c :: t ∧ isAsciiAlphaC c = true)
    (hs_low : s.map asciiLowerC = s)
    (hp_top : p.take 2 ≠ ['/', '/'])
    (hp_hash : ∀ x ∈ p, x ≠ '#') (hp_q : ∀ x ∈ p, x ≠ '?') :
    pyUrlsplit (s ++ ':' :: p) = ⟨s, [], p, [], []⟩ := by
  have hsch := schemeSplit_canonical p hs_ne hs_chars hs_head hs_low
  have hnet := netlocSplit_no_dslash hp_top
  have hfr : ∀ x ∈ p, (fun c => decide (c ≠ '#')) x = true := by
    intro x hx
    simp only [decide_eq_true_eq]
    exact hp_hash x hx
  have hqr : ∀ x ∈ p, (fun c => decide (c ≠ '?')) x = true := by
    intro x hx
    simp only [decide_eq_true_eq]
    exact hp_q x hx
  unfold pyUrlsplit
  simp only [hsch, hnet]
  rw [takeWhileAll hfr, dropWhileAll hfr, takeWhileAll hqr, dropWhileAll hqr]
  rfl

theorem pyUrlparse_no_params {l : List Char} {S : SplitUrl}
    (h : pyUrlsplit l = S) (hsemi : S.path.any (fun c => c = ';') = false) :
    pyUrlparse l = S := by
  unfold pyUrlparse paramsAdjustedPath
  rw [h, hsemi, Bool.and_false, if_neg (by intro hx; cases hx)]

theorem canonicalize_of_parse {l : List Char} {S : SplitUrl}
    (h : pyUrlparse l = S) :
    canonicalize_url (String.mk l)
      = String.mk (pyUrlunparseSNP
          ((if S.scheme.isEmpty then "https".toList else S.scheme).map asciiLowerC)
          (S.netloc.map asciiLowerC) (rstripSlash S.path)) := by
  unfold canonicalize_url
  have hl : (String.mk l).toList = l := rfl
  rw [hl, h]

theorem reparse_canonical (s n p : List Char)
    (hs_ne : s ≠ []) (hs_chars : ∀ x ∈ s, isSchemeChar x = true)
    (hs_head : ∃ c t, s = c :: t ∧ isAsciiAlphaC c = true)
    (hs_low : s.map asciiLowerC = s)
    (hn : ∀ x ∈ n, isNetlocDelim x = false)
    (hn_low : n.map asciiLowerC = n)
    (hp_hash : ∀ x ∈ p, x ≠ '#') (hp_q : ∀ x ∈ p, x ≠ '?')
    (hp_semi : ∀ x ∈ p, x ≠ ';')
    (hp_rs : rstripSlash p = p)
    (hshape : n ≠ [] ∨ p.take 2 ≠ ['/', '/']) :
    canonicalize_url (String.mk (pyUrlunparseSNP s n p))
      = String.mk (pyUrlunparseSNP s n p) := by
  have hsemi_any : ∀ q : List Char, (∀ x ∈ q, x ≠ ';') →
      (q.any (fun c => c = ';')) = false := by
    intro q hq
    rw [List.any_eq_false]
    intro x hx
    simp only [decide_eq_true_eq]
    exact hq x hx
  have hsie : s.isEmpty = false := by
    cases s with
    | nil => exact absurd rfl hs_ne
    | cons c t => rfl
  by_cases hcond : (n ≠ [] ∨
      (s ≠ [] ∧ usesNetlocL.contains (String.mk s) = true ∧
        p.take 2 ≠ ['/', '/']))
  · by_cases hguard : (p ≠ [] ∧ p.head? ≠ some '/')
    · -- the path gets a separating slash
      obtain ⟨cp, pt, hpct⟩ : ∃ cp pt, p = cp :: pt := by
        cases hp0 : p with
        | nil => exact absurd hp0 hguard.1
        | cons cp pt => exact ⟨cp, pt, rfl⟩
      have hcp : cp ≠ '/' := by
        intro hh
        apply hguard.2
        rw [hpct, hh]
        rfl
      have hunp : pyUrlunparseSNP s n p
          = s ++ ':' :: '/' :: '/' :: (n ++ '/' :: p) := by
        unfold pyUrlunparseSNP pyUrlunparseBody
        rw [if_pos hcond, if_pos hguard, if_pos hs_ne]
      have hmem : ∀ x ∈ '/' :: p, x ≠ '#' := by
        intro x hx
        rcases List.mem_cons.mp hx with rfl | hmem
        · decide
        · exact hp_hash x hmem
      have hmemq : ∀ x ∈ '/' :: p, x ≠ '?' := by
        intro x hx
        rcases List.mem_cons.mp hx with rfl | hmem
        · decide
        · exact hp_q x hmem
      have hmems : ∀ x ∈ '/' :: p, x ≠ ';' := by
        intro x hx
        rcases List.mem_cons.mp hx with rfl | hmem
        · decide
        · exact hp_semi x hmem
      have hps := pyUrlsplit_canonical_dslash s n ('/' :: p) hs_ne hs_chars
        hs_head hs_low hn (Or.inr ⟨p, rfl⟩) hmem hmemq
      have hpp := pyUrlparse_no_params hps (hsemi_any _ hmems)
      have hcan := canonicalize_of_parse hpp
      rw [hunp, hcan]
      dsimp only
      rw [hsie]
      simp only [Bool.false_eq_true, if_false]
      rw [hs_low, hn_low, rstripSlash_cons_slash hp_rs hguard.1]
      congr 1
      unfold pyUrlunparseSNP pyUrlunparseBody
      have hcond2 : (n ≠ [] ∨
          (s ≠ [] ∧ usesNetlocL.contains (String.mk s) = true ∧
            ('/' :: p).take 2 ≠ ['/', '/'])) := by
        rcases hcond with hl | ⟨h1, h2, h3⟩
        · exact Or.inl hl
        · refine Or.inr ⟨h1, h2, ?_⟩
          rw [hpct]
          intro hh
          injection hh with hh1 hh2
          injection hh2 with hh3
          exact hcp hh3
      rw [if_pos hcond2, if_pos hs_ne,
        if_neg (by intro hh; exact hh.2 rfl)]
    · -- the path is empty or already starts with a slash
      have hpg : p = [] ∨ ∃ pt, p = '/' :: pt := by
        by_cases hp0 : p = []
        · exact Or.inl hp0
        · have hhd : p.head? = some '/' := by
            by_contra hh
            exact hguard ⟨hp0, hh⟩
          cases hph : p with
          | nil => exact absurd hph hp0
          | cons c pt =>
            rw [hph] at hhd
            injection hhd with hc
            exact Or.inr ⟨pt, by rw [hc]⟩

      have hunp : pyUrlunparseSNP s n p
          = s ++ ':' :: '/' :: '/' :: (n ++ p) := by
        unfold pyUrlunparseSNP pyUrlunparseBody
        rw [if_pos hcond, if_neg hguard, if_pos hs_ne]
      have hps := pyUrlsplit_canonical_dslash s n p hs_ne hs_chars
        hs_head hs_low hn hpg hp_hash hp_q
      have hpp := pyUrlparse_no_params hps (hsemi_any _ hp_semi)
      have hcan := canonicalize_of_parse hpp
      rw [hunp, hcan]
      dsimp only
      rw [hsie]
      simp only [Bool.false_eq_true, if_false]
      rw [hs_low, hn_low, hp_rs]
      congr 1
  · -- no netloc reattachment: the body is the bare path
    have hn_nil : n = [] := by
      by_contra hh
      exact hcond (Or.inl hh)
    have htake : p.take 2 ≠ ['/', '/'] := by
      rcases hshape with hl | hr
      · exact absurd hn_nil hl
      · exact hr
    have hunp : pyUrlunparseSNP s n p = s ++ ':' :: p := by
      unfold pyUrlunparseSNP pyUrlunparseBody
      rw [if_neg hcond, if_pos hs_ne]
    have hps := pyUrlsplit_canonical_plain s p hs_ne hs_chars hs_head hs_low
      htake hp_hash hp_q
    have hpp := pyUrlparse_no_params hps (hsemi_any _ hp_semi)
    have hcan := canonicalize_of_parse hpp
    rw [hunp, hcan]
    dsimp only
    rw [hsie]
    simp only [Bool.false_eq_true, if_false]
    rw [hs_low, hp_rs]
    simp only [List.map_nil]
    congr 1
    unfold pyUrlunparseSNP pyUrlunparseBody
    have hcond3 : ¬(([] : List Char) ≠ [] ∨
        (s ≠ [] ∧ usesNetlocL.contains (String.mk s) = true ∧
          p.take 2 ≠ ['/', '/'])) := by
      intro hh
      rcases hh with hl | hr
      · exact hl rfl
      · rw [hn_nil] at hcond
        exact hcond (Or.inr hr)
    simp only [if_neg hcond3, if_pos hs_ne]

theorem mapLower_idem (l : List Char) :
    (l.map asciiLowerC).map asciiLowerC = l.map asciiLowerC := by
  induction l with
  | nil => rfl
  | cons c t ih => simp [asciiLowerC_idem, ih]

theorem schemeSplit_fst_cases (l : List Char) :
    (schemeSplit l).1 = [] ∨
    ∃ pre, (schemeSplit l).1 = pre.map asciiLowerC ∧ pre ≠ [] ∧
      (∀ x ∈ pre, isSchemeChar x = true) ∧
      ∃ c t, pre = c :: t ∧ isAsciiAlphaC c = true := by
  unfold schemeSplit
  by_cases hcond : (l.any (fun c => c = ':') &&
      !(l.takeWhile (fun c => c ≠ ':')).isEmpty &&
      (l.takeWhile (fun c => c ≠ ':')).all isSchemeChar &&
      (match (l.takeWhile (fun c => c ≠ ':')).head? with
       | some c => isAsciiAlphaC c
       | none => false)) = true
  · rw [if_pos hcond]
    right
    refine ⟨l.takeWhile (fun c => c ≠ ':'), rfl, ?_, ?_, ?_⟩
    · intro hnil
      rw [Bool.and_eq_true, Bool.and_eq_true, Bool.and_eq_true] at hcond
      have := hcond.1.1.2
      rw [hnil] at this
      cases this
    · rw [Bool.and_eq_true, Bool.and_eq_true, Bool.and_eq_true] at hcond
      exact List.all_eq_true.mp hcond.1.2
    · rw [Bool.and_eq_true, Bool.and_eq_true, Bool.and_eq_true] at hcond
      have hm := hcond.2
      cases hpre : (l.takeWhile (fun c => c ≠ ':')).head? with
      | none => rw [hpre] at hm; cases hm
      | some c =>
        rw [hpre] at hm
        cases htw : l.takeWhile (fun c => c ≠ ':') with
        | nil => rw [htw] at hpre; cases hpre
        | cons d t =>
          rw [htw] at hpre
          injection hpre with hdc
          exact ⟨d, t, rfl, by rw [hdc]; exact hm⟩
  · rw [if_neg hcond]
    exact Or.inl rfl

theorem schemeSplit_snd_subset (l : List Char) :
    ∀ x ∈ (schemeSplit l).2, x ∈ l := by
  unfold schemeSplit
  intro x hx
  by_cases hcond : (l.any (fun c => c = ':') &&
      !(l.takeWhile (fun c => c ≠ ':')).isEmpty &&
      (l.takeWhile (fun c => c ≠ ':')).all isSchemeChar &&
      (match (l.takeWhile (fun c => c ≠ ':')).head? with
       | some c => isAsciiAlphaC c
       | none => false)) = true
  · rw [if_pos hcond] at hx
    exact memOfDropWhile (List.drop_subset 1 _ hx)
  · rw [if_neg hcond] at hx
    exact hx

theorem netlocSplit_fst_no_delim (l : List Char) :
    ∀ x ∈ (netlocSplit l).1, isNetlocDelim x = false := by
  unfold netlocSplit
  intro x hx
  by_cases hcond : l.take 2 = ['/', '/']
  · rw [if_pos hcond] at hx
    have := allTakeWhile (l.drop 2) x hx
    simp only [Bool.not_eq_eq_eq_not, Bool.not_true] at this
    exact this
  · rw [if_neg hcond] at hx
    cases hx

theorem netlocSplit_snd_subset (l : List Char) :
    ∀ x ∈ (netlocSplit l).2, x ∈ l := by
  unfold netlocSplit
  intro x hx
  by_cases hcond : l.take 2 = ['/', '/']
  · rw [if_pos hcond] at hx
    exact List.drop_subset 2 l (memOfDropWhile hx)
  · rw [if_neg hcond] at hx
    exact hx

theorem splitParamsPath_subset (p : List Char) :
    ∀ x ∈ splitParamsPath p, x ∈ p := by
  unfold splitParamsPath
  intro x hx
  by_cases hs : p.any (fun c => c = '/') = true
  · rw [if_pos hs] at hx
    by_cases hsegs : ((p.reverse.takeWhile (fun c => c ≠ '/')).any
        (fun c => c = ';')) = true
    · rw [if_pos hsegs] at hx
      rcases List.mem_append.mp hx with hx1 | hx2
      · rw [List.mem_reverse] at hx1
        have := memOfDropWhile hx1
        rwa [List.mem_reverse] at this
      · have hx3 := memOfTakeWhile hx2
        rw [List.mem_reverse] at hx3
        have := memOfTakeWhile hx3
        rwa [List.mem_reverse] at this
    · rw [if_neg hsegs] at hx
      exact hx
  · rw [if_neg hs] at hx
    exact memOfTakeWhile hx

theorem pyUrlsplit_path_facts (l : List Char) :
    (∀ x ∈ (pyUrlsplit l).path, x ≠ '#') ∧
    (∀ x ∈ (pyUrlsplit l).path, x ≠ '?') ∧
    (∀ x ∈ (pyUrlsplit l).path, x ∈ l) := by
  have hpath : (pyUrlsplit l).path
      = ((netlocSplit (schemeSplit l).2).2.takeWhile
          (fun c => c ≠ '#')).takeWhile (fun c => c ≠ '?') := rfl
  refine ⟨?_, ?_, ?_⟩
  · intro x hx
    rw [hpath] at hx
    have := allTakeWhile _ x (memOfTakeWhile hx)
    simpa using this
  · intro x hx
    rw [hpath] at hx
    have := allTakeWhile _ x hx
    simpa using this
  · intro x hx
    rw [hpath] at hx
    exact schemeSplit_snd_subset l _
      (netlocSplit_snd_subset _ _ (memOfTakeWhile (memOfTakeWhile hx)))

theorem paramsAdjustedPath_subset (S : SplitUrl) :
    ∀ x ∈ paramsAdjustedPath S, x ∈ S.path := by
  unfold paramsAdjustedPath
  intro x hx
  by_cases hcond : (usesParamsL.contains (String.mk S.scheme) &&
      S.path.any (fun c => c = ';')) = true
  · rw [if_pos hcond] at hx
    exact splitParamsPath_subset _ x hx
  · rw [if_neg hcond] at hx
    exact hx

/-- A character a URL may safely contain for the canonicalizer model:
printable ASCII that is not a space, semicolon or square bracket (CPython's
whitespace and control-character sanitisation and its bracketed-host checks
are identities respectively vacuous on such URLs, and the params split
never fires without a semicolon). -/
def urlCleanC (c : Char) : Bool :=
  (33 ≤ c.toNat && c.toNat ≤ 126) && c ≠ ';' && c ≠ '[' && c ≠ ']'

/-- All characters of the string are clean in the sense of urlCleanC. -/
def urlClean (s : String) : Bool := s.toList.all urlCleanC

theorem canonicalize_url_idem (U : String) (hclean : urlClean U = true)
    (hshape : (pyUrlparse U.toList).netloc ≠ []
      ∨ (rstripSlash (pyUrlparse U.toList).path).take 2 ≠ ['/', '/']) :
    canonicalize_url (canonicalize_url U) = canonicalize_url U := by
  have hsemiL : ∀ x ∈ U.toList, x ≠ ';' := by
    intro x hx
    have hc := List.all_eq_true.mp hclean x hx
    unfold urlCleanC at hc
    rw [Bool.and_eq_true, Bool.and_eq_true, Bool.and_eq_true] at hc
    simpa using hc.1.1.2
  have hform : canonicalize_url U
      = String.mk (pyUrlunparseSNP
          ((if (pyUrlparse U.toList).scheme.isEmpty then "https".toList
            else (pyUrlparse U.toList).scheme).map asciiLowerC)
          ((pyUrlparse U.toList).netloc.map asciiLowerC)
          (rstripSlash (pyUrlparse U.toList).path)) := rfl
  have hs1cases : ((if (pyUrlparse U.toList).scheme.isEmpty then "https".toList
        else (pyUrlparse U.toList).scheme).map asciiLowerC) = "https".toList ∨
      ∃ pre, ((if (pyUrlparse U.toList).scheme.isEmpty then "https".toList
        else (pyUrlparse U.toList).scheme).map asciiLowerC) = pre.map asciiLowerC ∧
        pre ≠ [] ∧ (∀ x ∈ pre, isSchemeChar x = true) ∧
        ∃ c t, pre = c :: t ∧ isAsciiAlphaC c = true := by
    rcases schemeSplit_fst_cases U.toList with h0 | ⟨pre, hpre, hpne, hchars, hhead⟩
    · left
      have hsch : (pyUrlparse U.toList).scheme = [] := h0
      rw [hsch]
      decide
    · right
      refine ⟨pre, ?_, hpne, hchars, hhead⟩
      have hsch : (pyUrlparse U.toList).scheme = pre.map asciiLowerC := hpre
      rw [hsch]
      have hne2 : (pre.map asciiLowerC).isEmpty = false := by
        cases hp : pre with
        | nil => exact absurd hp hpne
        | cons c t => rfl
      rw [hne2]
      simp only [Bool.false_eq_true, if_false]
      exact mapLower_idem pre
  rw [hform]
  apply reparse_canonical
  · rcases hs1cases with h | ⟨pre, h, hpne, -, -⟩
    · rw [h]; decide
    · rw [h]
      intro hnil
      rw [List.map_eq_nil_iff] at hnil
      exact hpne hnil
  · rcases hs1cases with h | ⟨pre, h, -, hchars, -⟩
    · rw [h]; decide
    · rw [h]
      intro x hx
      rcases List.mem_map.mp hx with ⟨y, hy, rfl⟩
      exact isSchemeChar_asciiLowerC (hchars y hy)
  · rcases hs1cases with h | ⟨pre, h, -, -, c, t, hct, hca⟩
    · exact ⟨'h', ['t', 't', 'p', 's'], by rw [h]; decide, by decide⟩
    · exact ⟨asciiLowerC c, t.map asciiLowerC, by rw [h, hct]; rfl,
        isAsciiAlphaC_asciiLowerC hca⟩
  · rcases hs1cases with h | ⟨pre, h, -, -, -⟩
    · rw [h]; decide
    · rw [h]
      exact mapLower_idem pre
  · intro x hx
    rcases List.mem_map.mp hx with ⟨y, hy, rfl⟩
    exact isNetlocDelim_asciiLowerC (netlocSplit_fst_no_delim _ y hy)
  · exact mapLower_idem _
  · intro x hx
    exact (pyUrlsplit_path_facts U.toList).1 x
      (paramsAdjustedPath_subset _ x (memOfRstrip hx))
  · intro x hx
    exact (pyUrlsplit_path_facts U.toList).2.1 x
      (paramsAdjustedPath_subset _ x (memOfRstrip hx))
  · intro x hx
    exact hsemiL x ((pyUrlsplit_path_facts U.toList).2.2 x
      (paramsAdjustedPath_subset _ x (memOfRstrip hx)))
  · exact rstripSlash_idem _
  · rcases hshape with hl | hr
    · left
      intro hnil
      rw [List.map_eq_nil_iff] at hnil
      exact hl hnil
    · exact Or.inr hr

theorem canonicalize_url_ne_empty (U : String) : canonicalize_url U ≠ "" := by
  intro hemp
  have hdata : (canonicalize_url U).data = [] := by rw [hemp]
  have hs1ne : ((if (pyUrlparse U.toList).scheme.isEmpty then "https".toList
      else (pyUrlparse U.toList).scheme).map asciiLowerC) ≠ [] := by
    by_cases he : (pyUrlparse U.toList).scheme.isEmpty = true
    · rw [if_pos he]; decide
    · rw [if_neg he]
      intro hnil
      rw [List.map_eq_nil_iff] at hnil
      exact he (by rw [hnil]; rfl)
  have hform : (canonicalize_url U).data
      = pyUrlunparseSNP
          ((if (pyUrlparse U.toList).scheme.isEmpty then "https".toList
            else (pyUrlparse U.toList).scheme).map asciiLowerC)
          ((pyUrlparse U.toList).netloc.map asciiLowerC)
          (rstripSlash (pyUrlparse U.toList).path) := rfl
  rw [hform] at hdata
  unfold pyUrlunparseSNP at hdata
  rw [if_pos hs1ne] at hdata
  simp at hdata

/-- Claim C3 (amended): for a URL of printable ASCII with no space,
semicolon or square bracket, parsed with either an authority or a path not
opening with a double slash, the url-tier identity of the URL equals that
of its canonical form — and the concrete pair of the claim derives one
identity.  The amendment excludes the urlparse params split (a semicolon in
the last path segment breaks idempotence, see the counterexample) and the
inputs where CPython sanitises or rejects characters, or reinterprets a
netloc-less double-slash path. -/
theorem deriveIdentity_url_tier_canonical (g U : String)
    (hne : U ≠ "") (hclean : urlClean U = true)
    (hshape : (pyUrlparse U.toList).netloc ≠ []
      ∨ (rstripSlash (pyUrlparse U.toList).path).take 2 ≠ ['/', '/']) :
    Job.generate_uid g none (some U) none none none none
      = Job.generate_uid g none (some (canonicalize_url U)) none none none none ∧
    Job.generate_uid "g" none (some "https://Example.com/job/1/?ref=x")
        none none none none
      = Job.generate_uid "g" none (some "https://example.com/job/1")
        none none none none := by
  constructor
  · have hidem := canonicalize_url_idem U hclean hshape
    have ht2 : (!(U == "")) = true := by simp [hne]
    have ht3 : (!(canonicalize_url U == "")) = true := by
      simp [canonicalize_url_ne_empty U]
    unfold Job.generate_uid
    simp only [pyTruthy, ht2, ht3, Bool.false_eq_true, if_false,
      eq_self_iff_true, if_true, Option.getD_some]
    rw [hidem]
  · decide

/-- Witness for claim C3 at the concrete URL of the claim. -/
theorem deriveIdentity_url_tier_canonical_witness :
    Job.generate_uid "lever" none (some "https://Example.com/job/1/?ref=x")
        none none none none
      = Job.generate_uid "lever"
          none (some (canonicalize_url "https://Example.com/job/1/?ref=x"))
          none none none none :=
  (deriveIdentity_url_tier_canonical "lever" "https://Example.com/job/1/?ref=x"
    (by decide) (by decide) (by decide)).1

/-- Counterexample for claim C3 as stated: a trailing slash shields a
semicolon in the last path segment from the params split of urlparse on the
first pass but not the second, so canonicalization is not idempotent and
the two identities differ. -/
theorem deriveIdentity_url_tier_counterexample :
    Job.generate_uid "g" none (some "https://h/a/b;c/") none none none none
      ≠ Job.generate_uid "g" none (some (canonicalize_url "https://h/a/b;c/"))
          none none none none := by
  decide

end Looker
